import Mathlib

/- Shallow embedding of the suseejs/bundler sources src/opt/compile.ts and
   src/src/remove/imports.ts.  Strings are modelled as lists of characters;
   the JavaScript regular expressions used by the source are implemented
   directly, with the backtracking semantics of the JS regexp engine for the
   concrete patterns that appear in the code. -/

abbrev LC := List Char

def strL (s : String) : LC := s.toList

/- JavaScript \s restricted to the ASCII range (all source texts handled by
   the bundler are ASCII). -/
def isWsC (c : Char) : Bool :=
  c = ' ' || c = '\t' || c = '\n' || c = '\r' || c = '\x0b' || c = '\x0c'

/- JavaScript dot character class: any character except a line terminator. -/
def isDotC (c : Char) : Bool :=
  !(c = '\n' || c = '\r' || c = '\u2028' || c = '\u2029')

/- JavaScript \w. -/
def isWordC (c : Char) : Bool :=
  ('a' ≤ c && c ≤ 'z') || ('A' ≤ c && c ≤ 'Z') || ('0' ≤ c && c ≤ '9') || c = '_'

def isQuoteC (c : Char) : Bool := c = '"' || c = '\''

def firstSome {α β : Type} (f : α → Option β) : List α → Option β
  | [] => none
  | a :: as =>
    match f a with
    | some b => some b
    | none => firstSome f as

/- Length of the maximal whitespace run at the head. -/
def wsRun : LC → Nat
  | [] => 0
  | c :: cs => if isWsC c then wsRun cs + 1 else 0

/- Suffixes obtained by a \s+ consuming k characters, greedy order
   (k = run, run-1, ..., 1); empty when there is no leading whitespace. -/
def wsSplitsDesc (s : LC) : List LC :=
  (List.range (wsRun s)).map (fun k => s.drop (wsRun s - k))

/- Lazy split candidates for a dot-class prefix: pairs (clause, rest) in order
   of increasing clause length, clause consisting of dot-class characters. -/
def dotSplits : LC → List (LC × LC)
  | [] => [([], [])]
  | c :: cs =>
    ([], c :: cs) ::
      (if isDotC c then (dotSplits cs).map (fun p => (c :: p.1, p.2)) else [])

/- The trailing piece of the import regexp: a quote, one or more non-quote
   characters (captured), and a closing quote. -/
def quotePath (s : LC) : Option LC :=
  match s with
  | [] => none
  | c :: rest =>
    if isQuoteC c then
      let run := rest.takeWhile (fun d => !isQuoteC d)
      match rest.drop run.length with
      | d :: _ => if isQuoteC d && !run.isEmpty then some run else none
      | [] => none
    else none

/- The piece following a captured clause: one or more whitespace characters,
   the literal from, one or more whitespace characters, and the quoted path.
   The two \s+ here are deterministic because the characters that follow them
   in the pattern are not whitespace. -/
def fromQuote (s : LC) : Option LC :=
  let n := wsRun s
  if n = 0 then none
  else
    match s.drop n with
    | 'f' :: 'r' :: 'o' :: 'm' :: r2 =>
      let m := wsRun r2
      if m = 0 then none else quotePath (r2.drop m)
    | _ => none

/- The optional clause group of the import regexp: a lazily captured clause
   followed by the from/quote tail; candidates tried shortest clause first. -/
def clauseGroup (s : LC) : Option (LC × LC) :=
  firstSome (fun pr => (fromQuote pr.2).map (fun path => (pr.1, path))) (dotSplits s)

/- After the first \s+: optional clause group (preferred) or a direct quoted
   path (side-effect import). -/
def clauseCore (s : LC) : Option (Option LC × LC) :=
  match clauseGroup s with
  | some (cl, p) => some (some cl, p)
  | none => (quotePath s).map (fun p => (none, p))

/- Handles the optional type marker: the group is greedy, so the variant that
   consumes the literal type and trailing whitespace is tried first (with its
   own \s+ backtracked greedily), then the variant without it. -/
def afterImportWs (s : LC) : Option (Option LC × LC) :=
  match s with
  | 't' :: 'y' :: 'p' :: 'e' :: r =>
    match firstSome clauseCore (wsSplitsDesc r) with
    | some res => some res
    | none => clauseCore s
  | _ => clauseCore s

/- One attempt of the statement regexp
   import\s+(?:type\s+)?(?:(.*?)\s+from\s+)?["']([^"']+)["'];?
   anchored at the head of s; returns (captured clause, module path). -/
def importMatchAt (s : LC) : Option (Option LC × LC) :=
  match s with
  | 'i' :: 'm' :: 'p' :: 'o' :: 'r' :: 't' :: r => firstSome afterImportWs (wsSplitsDesc r)
  | _ => none

/- Leftmost match of the statement regexp (scan over start positions). -/
def importMatchScan : LC → Option (Option LC × LC)
  | [] => none
  | c :: cs =>
    match importMatchAt (c :: cs) with
    | some r => some r
    | none => importMatchScan cs

/- \w+ at the current position (greedy). -/
def wordCapture (s : LC) : Option LC :=
  let run := s.takeWhile isWordC
  if run.isEmpty then none else some run

/- One attempt of the fallback regexp import\s+(?:type\s+)?(\w+) anchored at
   the head of s, with the optional type group backtracked as in JS. -/
def defaultMatchAt (s : LC) : Option LC :=
  match s with
  | 'i' :: 'm' :: 'p' :: 'o' :: 'r' :: 't' :: r =>
    firstSome
      (fun r1 =>
        match r1 with
        | 't' :: 'y' :: 'p' :: 'e' :: r2 =>
          match firstSome wordCapture (wsSplitsDesc r2) with
          | some w => some w
          | none => wordCapture r1
        | _ => wordCapture r1)
      (wsSplitsDesc r)
  | _ => none

def defaultMatchScan : LC → Option LC
  | [] => none
  | c :: cs =>
    match defaultMatchAt (c :: cs) with
    | some r => some r
    | none => defaultMatchScan cs

/- One attempt of the namespace regexp \*\s+as\s+(\w+) at the head of s. -/
def nsMatchAt (s : LC) : Option LC :=
  match s with
  | '*' :: r =>
    let n := wsRun r
    if n = 0 then none
    else
      match r.drop n with
      | 'a' :: 's' :: r2 =>
        let m := wsRun r2
        if m = 0 then none else wordCapture (r2.drop m)
      | _ => none
  | _ => none

def nsMatchScan : LC → Option LC
  | [] => none
  | c :: cs =>
    match nsMatchAt (c :: cs) with
    | some r => some r
    | none => nsMatchScan cs

/- String.prototype.includes. -/
def isPreB : LC → LC → Bool
  | [], _ => true
  | _ :: _, [] => false
  | p :: ps, c :: cs => (p = c) && isPreB ps cs

def containsSub (pat : LC) : LC → Bool
  | [] => isPreB pat []
  | c :: cs => isPreB pat (c :: cs) || containsSub pat cs

/- String.prototype.trim (whitespace on both ends). -/
def trimWs (s : LC) : LC :=
  ((s.dropWhile isWsC).reverse.dropWhile isWsC).reverse

/- String.prototype.split on a comma. -/
def splitComma : LC → List LC
  | [] => [[]]
  | c :: cs =>
    if c = ',' then [] :: splitComma cs
    else
      match splitComma cs with
      | h :: t => (c :: h) :: t
      | [] => [[c]]

/- replace(/[{}]/g, "") -/
def stripBraces (s : LC) : LC :=
  s.filter (fun c => !(c = '\x7b' || c = '\x7d'))

/- Named-import binding extraction: strip braces, split on commas, trim each
   piece, and drop empty pieces. -/
def namedNames (clause : LC) : List LC :=
  ((splitComma (stripBraces clause)).map trimWs).filter (fun x => !x.isEmpty)

/- ===== mergeImports (src/opt/compile.ts mergeImports, lines 171-295) ===== -/

/- Shape category in which the source classifies a parsed import statement. -/
inductive MKind where
  | namedVal
  | namedType
  | defVal
  | defType
  | nsp
deriving DecidableEq

/- What one input statement contributes to the maps mergeImports builds:
   the classification, the module path, and the binding names added (in the
   order the source adds them; the list may be empty, in which case the
   statement still creates an entry for the path in the map of its kind). -/
structure Contribution where
  kind : MKind
  path : LC
  names : List LC
deriving DecidableEq

/- The per-statement parsing logic of mergeImports (lines 179-228): the main
   regexp, the includes check for the type marker, and the clause dispatch.
   Returns none exactly when the statement is skipped and touches no map. -/
def parseC (s0 : LC) : Option Contribution :=
  match importMatchScan s0 with
  | none => none
  | some (clauseOpt, path) =>
    let isType := containsSub (strL "import type") s0
    match clauseOpt with
    | none =>
      match defaultMatchScan s0 with
      | some w => some ⟨if isType then .defType else .defVal, path, [w]⟩
      | none => none
    | some clause =>
      if clause.isEmpty then
        match defaultMatchScan s0 with
        | some w => some ⟨if isType then .defType else .defVal, path, [w]⟩
        | none => none
      else if clause.head? = some '\x7b' then
        some ⟨if isType then .namedType else .namedVal, path, namedNames clause⟩
      else if isPreB (strL "* as") clause then
        match nsMatchScan clause with
        | some w => some ⟨.nsp, path, [w]⟩
        | none => none
      else
        some ⟨if isType then .defType else .defVal, path, [trimWs clause]⟩

/- Insertion-ordered set of names (JS Set). -/
def setAdd (s : List LC) (n : LC) : List LC :=
  if n ∈ s then s else s ++ [n]

/- Insertion-ordered map from module path to name set (JS Map of Sets).
   Adding ensures the key exists even when the name list is empty, exactly as
   the source does with map.set(path, new Set()) before adding names. -/
abbrev PMap := List (LC × List LC)

def pmapAddAll (m : PMap) (p : LC) (ns : List LC) : PMap :=
  match m with
  | [] => [(p, ns.foldl setAdd [])]
  | (q, s) :: rest =>
    if q = p then (q, ns.foldl setAdd s) :: rest
    else (q, s) :: pmapAddAll rest p ns

def lookupP (m : PMap) (p : LC) : Option (List LC) :=
  match m with
  | [] => none
  | (q, s) :: rest => if q = p then some s else lookupP rest p

def hasKeyP (m : PMap) (p : LC) : Bool := (lookupP m p).isSome

/- The five maps of mergeImports. -/
structure MapsState where
  importMap : PMap
  typeImportMap : PMap
  defaultImports : PMap
  typeDefaultImports : PMap
  namespaceImports : PMap
deriving DecidableEq

def initMaps : MapsState := ⟨[], [], [], [], []⟩

def stepC (st : MapsState) (s : LC) : MapsState :=
  match parseC s with
  | none => st
  | some c =>
    match c.kind with
    | .namedVal => { st with importMap := pmapAddAll st.importMap c.path c.names }
    | .namedType => { st with typeImportMap := pmapAddAll st.typeImportMap c.path c.names }
    | .defVal => { st with defaultImports := pmapAddAll st.defaultImports c.path c.names }
    | .defType => { st with typeDefaultImports := pmapAddAll st.typeDefaultImports c.path c.names }
    | .nsp => { st with namespaceImports := pmapAddAll st.namespaceImports c.path c.names }

def buildMaps (ss : List LC) : MapsState := ss.foldl stepC initMaps

/- One record per statement mergeImports emits, before rendering to text. -/
structure OutRec where
  kind : MKind
  path : LC
  names : List LC
deriving DecidableEq

def memB (l : List LC) (n : LC) : Bool := l.any (fun x => x == n)

/- The five emission loops of mergeImports (lines 230-292), as records.
   Block A: named imports, with type names that lack a value import merged in.
   Block B: remaining type-only named imports.  Blocks C/D: the same for
   default imports.  Block E: namespace imports. -/
def blockARec (st : MapsState) : List OutRec :=
  st.importMap.filterMap (fun e =>
    let tn := (lookupP st.typeImportMap e.1).getD []
    let fin := e.2 ++ tn.filter (fun n => !memB e.2 n)
    if fin.isEmpty then none else some ⟨.namedVal, e.1, fin⟩)

def blockBRec (st : MapsState) : List OutRec :=
  st.typeImportMap.filterMap (fun e =>
    if !hasKeyP st.importMap e.1 && !e.2.isEmpty then some ⟨.namedType, e.1, e.2⟩ else none)

def blockCRec (st : MapsState) : List OutRec :=
  st.defaultImports.filterMap (fun e =>
    let tn := (lookupP st.typeDefaultImports e.1).getD []
    let fin := e.2 ++ tn.filter (fun n => !memB e.2 n)
    if fin.isEmpty then none else some ⟨.defVal, e.1, fin⟩)

def blockDRec (st : MapsState) : List OutRec :=
  st.typeDefaultImports.filterMap (fun e =>
    if !hasKeyP st.defaultImports e.1 && !e.2.isEmpty then some ⟨.defType, e.1, e.2⟩ else none)

def blockERec (st : MapsState) : List OutRec :=
  st.namespaceImports.filterMap (fun e =>
    if !e.2.isEmpty then some ⟨.nsp, e.1, e.2⟩ else none)

def outputRecords (ss : List LC) : List OutRec :=
  blockARec (buildMaps ss) ++ blockBRec (buildMaps ss) ++ blockCRec (buildMaps ss) ++
    blockDRec (buildMaps ss) ++ blockERec (buildMaps ss)

/- Lexicographic order on strings by code unit, the default JS sort order. -/
def lexLt : LC → LC → Bool
  | [], [] => false
  | [], _ :: _ => true
  | _ :: _, [] => false
  | a :: as, b :: bs =>
    if a.val < b.val then true else if b.val < a.val then false else lexLt as bs

def insertSorted (x : LC) : List LC → List LC
  | [] => [x]
  | y :: ys => if lexLt x y then x :: y :: ys else y :: insertSorted x ys

def sortStrs (l : List LC) : List LC := l.foldr insertSorted []

def joinSep (sep : LC) : List LC → LC
  | [] => []
  | [x] => x
  | x :: y :: rest => x ++ sep ++ joinSep sep (y :: rest)

/- Rendering of one emitted record to statement text; named-import name lists
   are sorted (Array.from(set).sort()), default and namespace lists are
   joined in set order, exactly as in the source. -/
def renderRec (o : OutRec) : LC :=
  match o.kind with
  | .namedVal =>
    strL "import \x7b " ++ joinSep (strL ", ") (sortStrs o.names) ++ strL " \x7d from \"" ++ o.path ++ strL "\";"
  | .namedType =>
    strL "import type \x7b " ++ joinSep (strL ", ") (sortStrs o.names) ++ strL " \x7d from \"" ++ o.path ++ strL "\";"
  | .defVal =>
    strL "import " ++ joinSep (strL ", ") o.names ++ strL " from \"" ++ o.path ++ strL "\";"
  | .defType =>
    strL "import type " ++ joinSep (strL ", ") o.names ++ strL " from \"" ++ o.path ++ strL "\";"
  | .nsp =>
    strL "import * as " ++ joinSep (strL ", ") o.names ++ strL " from \"" ++ o.path ++ strL "\";"

/- mergeImports itself: parse into the maps, emit, render, and sort the final
   statement list (mergedImports.sort()). -/
def mergeImports (ss : List LC) : List LC :=
  sortStrs ((outputRecords ss).map renderRec)

/- ===== Lemmas about the map accumulation ===== -/

def mapForK (st : MapsState) : MKind → PMap
  | .namedVal => st.importMap
  | .namedType => st.typeImportMap
  | .defVal => st.defaultImports
  | .defType => st.typeDefaultImports
  | .nsp => st.namespaceImports

/- Name n sits in the set stored for path p. -/
def memMap (m : PMap) (p n : LC) : Prop :=
  ∃ t, lookupP m p = some t ∧ n ∈ t

/- Statement s contributes a parse record of kind k for path p
   (optionally with name n among the added names). -/
def contributesKey (ss : List LC) (k : MKind) (p : LC) : Prop :=
  ∃ s ∈ ss, ∃ c, parseC s = some c ∧ c.kind = k ∧ c.path = p

def contributesName (ss : List LC) (k : MKind) (p n : LC) : Prop :=
  ∃ s ∈ ss, ∃ c, parseC s = some c ∧ c.kind = k ∧ c.path = p ∧ n ∈ c.names

theorem setAdd_mem_self (s : List LC) (n : LC) : n ∈ setAdd s n := by
  unfold setAdd; split
  · assumption
  · exact List.mem_append_right _ (List.mem_singleton.mpr rfl)

theorem setAdd_mem_of {s : List LC} {x : LC} (h : x ∈ s) (n : LC) : x ∈ setAdd s n := by
  unfold setAdd; split
  · exact h
  · exact List.mem_append_left _ h

theorem foldl_setAdd_mem_init {s : List LC} {x : LC} (h : x ∈ s) :
    ∀ ns : List LC, x ∈ ns.foldl setAdd s := by
  intro ns
  induction ns generalizing s with
  | nil => exact h
  | cons n rest ih => exact ih (setAdd_mem_of h n)

theorem foldl_setAdd_mem_arg {ns : List LC} {n : LC} (h : n ∈ ns) (s : List LC) :
    n ∈ ns.foldl setAdd s := by
  induction ns generalizing s with
  | nil => cases h
  | cons m rest ih =>
    rw [List.foldl_cons]
    rcases List.mem_cons.mp h with h1 | h2
    · subst h1
      exact foldl_setAdd_mem_init (setAdd_mem_self s n) rest
    · exact ih h2 (setAdd s m)

theorem lookupP_pmapAddAll_self (m : PMap) (p : LC) (ns : List LC) :
    lookupP (pmapAddAll m p ns) p = some (ns.foldl setAdd ((lookupP m p).getD [])) := by
  induction m with
  | nil => simp [pmapAddAll, lookupP]
  | cons e rest ih =>
    obtain ⟨q, s⟩ := e
    by_cases hq : q = p
    · subst hq
      simp [pmapAddAll, lookupP]
    · simp [pmapAddAll, lookupP, hq, ih]

theorem lookupP_pmapAddAll_ne (m : PMap) {p q : LC} (h : q ≠ p) (ns : List LC) :
    lookupP (pmapAddAll m p ns) q = lookupP m q := by
  induction m with
  | nil => simp [pmapAddAll, lookupP, Ne.symm h]
  | cons e rest ih =>
    obtain ⟨r, s⟩ := e
    by_cases hr : r = p
    · subst hr
      simp [pmapAddAll, lookupP, Ne.symm h]
    · by_cases hq : r = q
      · subst hq
        simp [pmapAddAll, lookupP, hr]
      · simp [pmapAddAll, lookupP, hr, hq, ih]

theorem hasKeyP_pmapAddAll_self (m : PMap) (p : LC) (ns : List LC) :
    hasKeyP (pmapAddAll m p ns) p = true := by
  unfold hasKeyP
  rw [lookupP_pmapAddAll_self]
  rfl

theorem hasKeyP_pmapAddAll_of (m : PMap) {q : LC} (h : hasKeyP m q = true) (p : LC)
    (ns : List LC) : hasKeyP (pmapAddAll m p ns) q = true := by
  by_cases hq : q = p
  · subst hq; exact hasKeyP_pmapAddAll_self m q ns
  · unfold hasKeyP at h ⊢
    rw [lookupP_pmapAddAll_ne m hq]
    exact h

theorem hasKeyP_pmapAddAll_src (m : PMap) {p q : LC} (ns : List LC)
    (h : hasKeyP (pmapAddAll m p ns) q = true) : q = p ∨ hasKeyP m q = true := by
  by_cases hq : q = p
  · exact Or.inl hq
  · right
    unfold hasKeyP at h ⊢
    rwa [lookupP_pmapAddAll_ne m hq] at h

theorem memMap_pmapAddAll_self (m : PMap) {p n : LC} {ns : List LC} (h : n ∈ ns) :
    memMap (pmapAddAll m p ns) p n := by
  exact ⟨_, lookupP_pmapAddAll_self m p ns, foldl_setAdd_mem_arg h _⟩

theorem memMap_pmapAddAll_of (m : PMap) {q n : LC} (h : memMap m q n) (p : LC)
    (ns : List LC) : memMap (pmapAddAll m p ns) q n := by
  obtain ⟨t, hl, hm⟩ := h
  by_cases hq : q = p
  · subst hq
    refine ⟨_, lookupP_pmapAddAll_self m q ns, ?_⟩
    have : (lookupP m q).getD [] = t := by rw [hl]; rfl
    rw [this]
    exact foldl_setAdd_mem_init hm ns
  · exact ⟨t, by rw [lookupP_pmapAddAll_ne m hq]; exact hl, hm⟩

theorem stepC_none {st : MapsState} {s : LC} (h : parseC s = none) : stepC st s = st := by
  unfold stepC
  rw [h]

theorem stepC_same_kind {st : MapsState} {s : LC} {c : Contribution} (h : parseC s = some c) :
    mapForK (stepC st s) c.kind = pmapAddAll (mapForK st c.kind) c.path c.names := by
  unfold stepC
  rw [h]
  cases hk : c.kind <;> simp [mapForK, hk]

theorem stepC_other_kind {st : MapsState} {s : LC} {c : Contribution} (h : parseC s = some c)
    {k : MKind} (hk : k ≠ c.kind) : mapForK (stepC st s) k = mapForK st k := by
  unfold stepC
  rw [h]
  cases hc : c.kind <;> cases k <;> simp_all [mapForK]

theorem hasKeyP_stepC_of {st : MapsState} {k : MKind} {p : LC}
    (h : hasKeyP (mapForK st k) p = true) (s : LC) :
    hasKeyP (mapForK (stepC st s) k) p = true := by
  cases hp : parseC s with
  | none => rw [stepC_none hp]; exact h
  | some c =>
    by_cases hk : k = c.kind
    · subst hk
      rw [stepC_same_kind hp]
      exact hasKeyP_pmapAddAll_of _ h _ _
    · rw [stepC_other_kind hp hk]
      exact h

theorem memMap_stepC_of {st : MapsState} {k : MKind} {p n : LC}
    (h : memMap (mapForK st k) p n) (s : LC) :
    memMap (mapForK (stepC st s) k) p n := by
  cases hp : parseC s with
  | none => rw [stepC_none hp]; exact h
  | some c =>
    by_cases hk : k = c.kind
    · subst hk
      rw [stepC_same_kind hp]
      exact memMap_pmapAddAll_of _ h _ _
    · rw [stepC_other_kind hp hk]
      exact h

theorem hasKeyP_foldl_of {k : MKind} {p : LC} :
    ∀ (ss : List LC) (st : MapsState), hasKeyP (mapForK st k) p = true →
      hasKeyP (mapForK (ss.foldl stepC st) k) p = true := by
  intro ss
  induction ss with
  | nil => intro st h; exact h
  | cons s rest ih =>
    intro st h
    rw [List.foldl_cons]
    exact ih _ (hasKeyP_stepC_of h s)

theorem memMap_foldl_of {k : MKind} {p n : LC} :
    ∀ (ss : List LC) (st : MapsState), memMap (mapForK st k) p n →
      memMap (mapForK (ss.foldl stepC st) k) p n := by
  intro ss
  induction ss with
  | nil => intro st h; exact h
  | cons s rest ih =>
    intro st h
    rw [List.foldl_cons]
    exact ih _ (memMap_stepC_of h s)

theorem memMap_buildMaps_of_contributes {ss : List LC} {k : MKind} {p n : LC}
    (h : contributesName ss k p n) : memMap (mapForK (buildMaps ss) k) p n := by
  unfold buildMaps
  obtain ⟨s, hs, c, hc, hk, hp, hn⟩ := h
  have main : ∀ (l : List LC) (st : MapsState), s ∈ l →
      memMap (mapForK (l.foldl stepC st) k) p n := by
    intro l
    induction l with
    | nil => intro st h0; cases h0
    | cons a rest ih =>
      intro st hmem
      rw [List.foldl_cons]
      rcases List.mem_cons.mp hmem with h1 | h2
      · subst h1
        have : memMap (mapForK (stepC st s) k) p n := by
          rw [← hk, ← hp] at *
          rw [stepC_same_kind hc]
          exact memMap_pmapAddAll_self _ hn
        exact memMap_foldl_of rest _ this
      · exact ih _ h2
  exact main ss initMaps hs

theorem hasKeyP_buildMaps_of_contributes {ss : List LC} {k : MKind} {p : LC}
    (h : contributesKey ss k p) : hasKeyP (mapForK (buildMaps ss) k) p = true := by
  unfold buildMaps
  obtain ⟨s, hs, c, hc, hk, hp⟩ := h
  have main : ∀ (l : List LC) (st : MapsState), s ∈ l →
      hasKeyP (mapForK (l.foldl stepC st) k) p = true := by
    intro l
    induction l with
    | nil => intro st h0; cases h0
    | cons a rest ih =>
      intro st hmem
      rw [List.foldl_cons]
      rcases List.mem_cons.mp hmem with h1 | h2
      · subst h1
        have : hasKeyP (mapForK (stepC st s) k) p = true := by
          rw [← hk, ← hp] at *
          rw [stepC_same_kind hc]
          exact hasKeyP_pmapAddAll_self _ _ _
        exact hasKeyP_foldl_of rest _ this
      · exact ih _ h2
  exact main ss initMaps hs

theorem hasKeyP_stepC_src {st : MapsState} {k : MKind} {p : LC} {s : LC}
    (h : hasKeyP (mapForK (stepC st s) k) p = true) :
    hasKeyP (mapForK st k) p = true ∨
      ∃ c, parseC s = some c ∧ c.kind = k ∧ c.path = p := by
  cases hp : parseC s with
  | none => rw [stepC_none hp] at h; exact Or.inl h
  | some c =>
    by_cases hk : k = c.kind
    · subst hk
      rw [stepC_same_kind hp] at h
      rcases hasKeyP_pmapAddAll_src _ _ h with h1 | h2
      · exact Or.inr ⟨c, rfl, rfl, h1.symm⟩
      · exact Or.inl h2
    · rw [stepC_other_kind hp hk] at h
      exact Or.inl h

theorem hasKeyP_buildMaps_src {ss : List LC} {k : MKind} {p : LC}
    (h : hasKeyP (mapForK (buildMaps ss) k) p = true) : contributesKey ss k p := by
  unfold buildMaps at h
  have main : ∀ (l : List LC) (st : MapsState),
      hasKeyP (mapForK (l.foldl stepC st) k) p = true →
      hasKeyP (mapForK st k) p = true ∨ contributesKey l k p := by
    intro l
    induction l with
    | nil => intro st h0; exact Or.inl h0
    | cons a rest ih =>
      intro st h0
      rw [List.foldl_cons] at h0
      rcases ih _ h0 with h1 | h2
      · rcases hasKeyP_stepC_src h1 with h3 | ⟨c, hc, hk, hp2⟩
        · exact Or.inl h3
        · exact Or.inr ⟨a, List.mem_cons_self _ _, c, hc, hk, hp2⟩
      · obtain ⟨s, hs, rest2⟩ := h2
        exact Or.inr ⟨s, List.mem_cons_of_mem _ hs, rest2⟩
  rcases main ss initMaps h with h1 | h2
  · cases k <;> simp [mapForK, initMaps, hasKeyP, lookupP] at h1
  · exact h2

/- ===== Key nodup invariant (JS Map keys are unique) ===== -/

def keysOf : PMap → List LC
  | [] => []
  | e :: rest => e.1 :: keysOf rest

theorem mem_keys_pmapAddAll {m : PMap} {p x : LC} {ns : List LC}
    (h : x ∈ keysOf (pmapAddAll m p ns)) : x ∈ keysOf m ∨ x = p := by
  induction m with
  | nil =>
    simp [pmapAddAll, keysOf] at h
    exact Or.inr h
  | cons e rest ih =>
    obtain ⟨q, t⟩ := e
    by_cases hq : q = p
    · subst hq
      simp only [pmapAddAll, if_pos rfl, keysOf] at h
      exact Or.inl h
    · simp only [pmapAddAll, if_neg hq, keysOf, List.mem_cons] at h ⊢
      rcases h with h1 | h2
      · exact Or.inl (Or.inl h1)
      · rcases ih h2 with h3 | h4
        · exact Or.inl (Or.inr h3)
        · exact Or.inr h4

theorem nodup_keys_pmapAddAll {m : PMap} (h : (keysOf m).Nodup) (p : LC) (ns : List LC) :
    (keysOf (pmapAddAll m p ns)).Nodup := by
  induction m with
  | nil => simp [pmapAddAll, keysOf]
  | cons e rest ih =>
    obtain ⟨q, t⟩ := e
    simp only [keysOf, List.nodup_cons] at h
    by_cases hq : q = p
    · subst hq
      simp only [pmapAddAll, if_pos rfl, keysOf, List.nodup_cons]
      exact h
    · simp only [pmapAddAll, if_neg hq, keysOf, List.nodup_cons]
      refine ⟨?_, ih h.2⟩
      intro hmem
      rcases mem_keys_pmapAddAll hmem with h1 | h2
      · exact h.1 h1
      · exact hq h2

def goodKeys (st : MapsState) : Prop :=
  (keysOf st.importMap).Nodup ∧ (keysOf st.typeImportMap).Nodup ∧
    (keysOf st.defaultImports).Nodup ∧ (keysOf st.typeDefaultImports).Nodup ∧
    (keysOf st.namespaceImports).Nodup

theorem goodKeys_stepC {st : MapsState} (h : goodKeys st) (s : LC) : goodKeys (stepC st s) := by
  obtain ⟨h1, h2, h3, h4, h5⟩ := h
  unfold stepC
  cases hp : parseC s with
  | none => exact ⟨h1, h2, h3, h4, h5⟩
  | some c =>
    obtain ⟨k, p, ns⟩ := c
    cases k <;>
      exact ⟨by first | exact nodup_keys_pmapAddAll h1 _ _ | exact h1,
        by first | exact nodup_keys_pmapAddAll h2 _ _ | exact h2,
        by first | exact nodup_keys_pmapAddAll h3 _ _ | exact h3,
        by first | exact nodup_keys_pmapAddAll h4 _ _ | exact h4,
        by first | exact nodup_keys_pmapAddAll h5 _ _ | exact h5⟩

theorem goodKeys_buildMaps (ss : List LC) : goodKeys (buildMaps ss) := by
  unfold buildMaps
  have main : ∀ (l : List LC) (st : MapsState), goodKeys st → goodKeys (l.foldl stepC st) := by
    intro l
    induction l with
    | nil => intro st h; exact h
    | cons a rest ih =>
      intro st h
      rw [List.foldl_cons]
      exact ih _ (goodKeys_stepC h a)
  exact main ss initMaps ⟨List.nodup_nil, List.nodup_nil, List.nodup_nil, List.nodup_nil, List.nodup_nil⟩

/- ===== Emission block lemmas ===== -/

theorem memB_iff {l : List LC} {n : LC} : memB l n = true ↔ n ∈ l := by
  unfold memB
  rw [List.any_eq_true]
  constructor
  · rintro ⟨x, hx, he⟩
    rw [beq_iff_eq] at he
    exact he ▸ hx
  · intro h
    exact ⟨n, h, beq_self_eq_true n⟩

theorem mem_of_lookupP {m : PMap} {p : LC} {t : List LC} (h : lookupP m p = some t) :
    (p, t) ∈ m := by
  induction m with
  | nil => cases h
  | cons e rest ih =>
    obtain ⟨q, s⟩ := e
    by_cases hq : q = p
    · subst hq
      simp [lookupP] at h
      subst h
      exact List.mem_cons_self _ _
    · simp [lookupP, hq] at h
      exact List.mem_cons_of_mem _ (ih h)

theorem hasKeyP_of_mem {m : PMap} {p : LC} {t : List LC} (h : (p, t) ∈ m) :
    hasKeyP m p = true := by
  induction m with
  | nil => cases h
  | cons e rest ih =>
    obtain ⟨q, s⟩ := e
    rcases List.mem_cons.mp h with h1 | h2
    · cases h1
      simp [hasKeyP, lookupP]
    · by_cases hq : q = p
      · simp [hasKeyP, lookupP, hq]
      · simpa [hasKeyP, lookupP, hq] using ih h2

theorem mem_blockA_of {st : MapsState} {p n : LC} {t : List LC}
    (hl : lookupP st.importMap p = some t) (hn : n ∈ t) :
    ∃ fin, (⟨.namedVal, p, fin⟩ : OutRec) ∈ blockARec st ∧ n ∈ fin := by
  refine ⟨t ++ ((lookupP st.typeImportMap p).getD []).filter (fun x => !memB t x), ?_, ?_⟩
  · refine List.mem_filterMap.mpr ⟨(p, t), mem_of_lookupP hl, ?_⟩
    have hne : ¬(t ++ ((lookupP st.typeImportMap p).getD []).filter (fun x => !memB t x)).isEmpty = true := by
      rcases t with _ | ⟨a, r⟩
      · cases hn
      · simp
    simp only [hne]
    simp
  · exact List.mem_append_left _ hn

theorem mem_blockA_type_of {st : MapsState} {p n : LC} {t u : List LC}
    (hl : lookupP st.importMap p = some t) (hu : lookupP st.typeImportMap p = some u)
    (hn : n ∈ u) :
    ∃ fin, (⟨.namedVal, p, fin⟩ : OutRec) ∈ blockARec st ∧ n ∈ fin := by
  refine ⟨t ++ (((lookupP st.typeImportMap p).getD []).filter (fun x => !memB t x)), ?_, ?_⟩
  · refine List.mem_filterMap.mpr ⟨(p, t), mem_of_lookupP hl, ?_⟩
    have hmem : n ∈ t ++ (((lookupP st.typeImportMap p).getD []).filter (fun x => !memB t x)) := by
      by_cases hmemt : n ∈ t
      · exact List.mem_append_left _ hmemt
      · refine List.mem_append_right _ ?_
        rw [hu]
        refine List.mem_filter.mpr ⟨hn, ?_⟩
        simp only [Bool.not_eq_true']
        exact (Bool.not_eq_true _).mp (fun hb => hmemt (memB_iff.mp hb))
    have hne : ¬(t ++ (((lookupP st.typeImportMap p).getD []).filter (fun x => !memB t x))).isEmpty = true := by
      intro hb
      rw [List.isEmpty_iff] at hb
      rw [hb] at hmem
      cases hmem
    simp only [hne]
    simp
  · by_cases hmemt : n ∈ t
    · exact List.mem_append_left _ hmemt
    · refine List.mem_append_right _ ?_
      rw [hu]
      refine List.mem_filter.mpr ⟨hn, ?_⟩
      simp only [Bool.not_eq_true']
      exact (Bool.not_eq_true _).mp (fun hb => hmemt (memB_iff.mp hb))

theorem mem_blockB_of {st : MapsState} {p n : LC} {u : List LC}
    (hu : lookupP st.typeImportMap p = some u) (hn : n ∈ u)
    (hk : hasKeyP st.importMap p = false) :
    (⟨.namedType, p, u⟩ : OutRec) ∈ blockBRec st := by
  refine List.mem_filterMap.mpr ⟨(p, u), mem_of_lookupP hu, ?_⟩
  have hne : u.isEmpty = false := by
    rcases u with _ | ⟨a, r⟩
    · cases hn
    · rfl
  simp [hk, hne]

theorem mem_blockC_of {st : MapsState} {p n : LC} {t : List LC}
    (hl : lookupP st.defaultImports p = some t) (hn : n ∈ t) :
    ∃ fin, (⟨.defVal, p, fin⟩ : OutRec) ∈ blockCRec st ∧ n ∈ fin := by
  refine ⟨t ++ ((lookupP st.typeDefaultImports p).getD []).filter (fun x => !memB t x), ?_, ?_⟩
  · refine List.mem_filterMap.mpr ⟨(p, t), mem_of_lookupP hl, ?_⟩
    have hne : ¬(t ++ ((lookupP st.typeDefaultImports p).getD []).filter (fun x => !memB t x)).isEmpty = true := by
      rcases t with _ | ⟨a, r⟩
      · cases hn
      · simp
    simp only [hne]
    simp
  · exact List.mem_append_left _ hn

theorem mem_blockC_type_of {st : MapsState} {p n : LC} {t u : List LC}
    (hl : lookupP st.defaultImports p = some t) (hu : lookupP st.typeDefaultImports p = some u)
    (hn : n ∈ u) :
    ∃ fin, (⟨.defVal, p, fin⟩ : OutRec) ∈ blockCRec st ∧ n ∈ fin := by
  refine ⟨t ++ (((lookupP st.typeDefaultImports p).getD []).filter (fun x => !memB t x)), ?_, ?_⟩
  · refine List.mem_filterMap.mpr ⟨(p, t), mem_of_lookupP hl, ?_⟩
    have hmem : n ∈ t ++ (((lookupP st.typeDefaultImports p).getD []).filter (fun x => !memB t x)) := by
      by_cases hmemt : n ∈ t
      · exact List.mem_append_left _ hmemt
      · refine List.mem_append_right _ ?_
        rw [hu]
        refine List.mem_filter.mpr ⟨hn, ?_⟩
        simp only [Bool.not_eq_true']
        exact (Bool.not_eq_true _).mp (fun hb => hmemt (memB_iff.mp hb))
    have hne : ¬(t ++ (((lookupP st.typeDefaultImports p).getD []).filter (fun x => !memB t x))).isEmpty = true := by
      intro hb
      rw [List.isEmpty_iff] at hb
      rw [hb] at hmem
      cases hmem
    simp only [hne]
    simp
  · by_cases hmemt : n ∈ t
    · exact List.mem_append_left _ hmemt
    · refine List.mem_append_right _ ?_
      rw [hu]
      refine List.mem_filter.mpr ⟨hn, ?_⟩
      simp only [Bool.not_eq_true']
      exact (Bool.not_eq_true _).mp (fun hb => hmemt (memB_iff.mp hb))

theorem mem_blockD_of {st : MapsState} {p n : LC} {u : List LC}
    (hu : lookupP st.typeDefaultImports p = some u) (hn : n ∈ u)
    (hk : hasKeyP st.defaultImports p = false) :
    (⟨.defType, p, u⟩ : OutRec) ∈ blockDRec st := by
  refine List.mem_filterMap.mpr ⟨(p, u), mem_of_lookupP hu, ?_⟩
  have hne : u.isEmpty = false := by
    rcases u with _ | ⟨a, r⟩
    · cases hn
    · rfl
  simp [hk, hne]

theorem mem_blockE_of {st : MapsState} {p n : LC} {u : List LC}
    (hu : lookupP st.namespaceImports p = some u) (hn : n ∈ u) :
    (⟨.nsp, p, u⟩ : OutRec) ∈ blockERec st := by
  refine List.mem_filterMap.mpr ⟨(p, u), mem_of_lookupP hu, ?_⟩
  have hne : u.isEmpty = false := by
    rcases u with _ | ⟨a, r⟩
    · cases hn
    · rfl
  simp [hne]

theorem mem_keysOf_of_mem {m : PMap} {e : LC × List LC} (h : e ∈ m) : e.1 ∈ keysOf m := by
  induction m with
  | nil => cases h
  | cons a rest ih =>
    rcases List.mem_cons.mp h with h1 | h2
    · subst h1; exact List.mem_cons_self _ _
    · exact List.mem_cons_of_mem _ (ih h2)

theorem blockA_elim {st : MapsState} {o : OutRec} (h : o ∈ blockARec st) :
    o.kind = .namedVal ∧ ∃ t, (o.path, t) ∈ st.importMap := by
  obtain ⟨e, he, hf⟩ := List.mem_filterMap.mp h
  by_cases hcond : (e.2 ++ ((lookupP st.typeImportMap e.1).getD []).filter (fun n => !memB e.2 n)).isEmpty = true
  · simp only [blockARec, hcond] at hf
    simp at hf
  · simp only [blockARec, hcond] at hf
    simp at hf
    rw [← hf]
    exact ⟨rfl, ⟨e.2, by simpa using he⟩⟩

theorem blockB_elim {st : MapsState} {o : OutRec} (h : o ∈ blockBRec st) :
    o.kind = .namedType ∧ hasKeyP st.importMap o.path = false ∧
      ∃ t, (o.path, t) ∈ st.typeImportMap := by
  obtain ⟨e, he, hf⟩ := List.mem_filterMap.mp h
  by_cases hcond : (!hasKeyP st.importMap e.1 && !e.2.isEmpty) = true
  · simp only [hcond, if_pos] at hf
    simp at hf
    rw [← hf]
    refine ⟨rfl, ?_, ⟨e.2, by simpa using he⟩⟩
    have := (Bool.and_eq_true _ _).mp hcond
    simpa using this.1
  · simp only [hcond] at hf
    simp at hf

theorem blockC_elim {st : MapsState} {o : OutRec} (h : o ∈ blockCRec st) :
    o.kind = .defVal ∧ ∃ t, (o.path, t) ∈ st.defaultImports := by
  obtain ⟨e, he, hf⟩ := List.mem_filterMap.mp h
  by_cases hcond : (e.2 ++ ((lookupP st.typeDefaultImports e.1).getD []).filter (fun n => !memB e.2 n)).isEmpty = true
  · simp only [blockCRec, hcond] at hf
    simp at hf
  · simp only [blockCRec, hcond] at hf
    simp at hf
    rw [← hf]
    exact ⟨rfl, ⟨e.2, by simpa using he⟩⟩

theorem blockD_elim {st : MapsState} {o : OutRec} (h : o ∈ blockDRec st) :
    o.kind = .defType ∧ hasKeyP st.defaultImports o.path = false ∧
      ∃ t, (o.path, t) ∈ st.typeDefaultImports := by
  obtain ⟨e, he, hf⟩ := List.mem_filterMap.mp h
  by_cases hcond : (!hasKeyP st.defaultImports e.1 && !e.2.isEmpty) = true
  · simp only [hcond, if_pos] at hf
    simp at hf
    rw [← hf]
    refine ⟨rfl, ?_, ⟨e.2, by simpa using he⟩⟩
    have := (Bool.and_eq_true _ _).mp hcond
    simpa using this.1
  · simp only [hcond] at hf
    simp at hf

theorem blockE_elim {st : MapsState} {o : OutRec} (h : o ∈ blockERec st) :
    o.kind = .nsp ∧ ∃ t, (o.path, t) ∈ st.namespaceImports := by
  obtain ⟨e, he, hf⟩ := List.mem_filterMap.mp h
  by_cases hcond : e.2.isEmpty = true
  · simp only [blockERec, hcond] at hf
    simp at hf
  · simp only [blockERec, hcond] at hf
    simp at hf
    rw [← hf]
    exact ⟨rfl, ⟨e.2, by simpa using he⟩⟩

theorem pairwise_path_filterMap {m : PMap} (hnd : (keysOf m).Nodup)
    {f : LC × List LC → Option OutRec} (hf : ∀ e r, f e = some r → r.path = e.1) :
    (m.filterMap f).Pairwise (fun a b => a.path ≠ b.path) := by
  induction m with
  | nil => simp
  | cons e rest ih =>
    simp only [keysOf, List.nodup_cons] at hnd
    rw [List.filterMap_cons]
    cases hfe : f e with
    | none => exact ih hnd.2
    | some r =>
      refine List.Pairwise.cons ?_ (ih hnd.2)
      intro b hb
      obtain ⟨e2, he2, hfe2⟩ := List.mem_filterMap.mp hb
      rw [hf e r hfe, hf e2 b hfe2]
      intro heq
      exact hnd.1 (heq ▸ mem_keysOf_of_mem he2)

theorem blockA_path {st : MapsState} : ∀ e r,
    (fun e : LC × List LC =>
      let tn := (lookupP st.typeImportMap e.1).getD []
      let fin := e.2 ++ tn.filter (fun n => !memB e.2 n)
      if fin.isEmpty then none else some (⟨.namedVal, e.1, fin⟩ : OutRec)) e = some r →
    r.path = e.1 := by
  intro e r hf
  simp only at hf
  split at hf
  · cases hf
  · cases hf
    rfl

theorem blockB_path {st : MapsState} : ∀ e r,
    (fun e : LC × List LC =>
      if !hasKeyP st.importMap e.1 && !e.2.isEmpty then some (⟨.namedType, e.1, e.2⟩ : OutRec)
      else none) e = some r → r.path = e.1 := by
  intro e r hf
  simp only at hf
  split at hf
  · cases hf
    rfl
  · cases hf

theorem blockC_path {st : MapsState} : ∀ e r,
    (fun e : LC × List LC =>
      let tn := (lookupP st.typeDefaultImports e.1).getD []
      let fin := e.2 ++ tn.filter (fun n => !memB e.2 n)
      if fin.isEmpty then none else some (⟨.defVal, e.1, fin⟩ : OutRec)) e = some r →
    r.path = e.1 := by
  intro e r hf
  simp only at hf
  split at hf
  · cases hf
  · cases hf
    rfl

theorem blockD_path {st : MapsState} : ∀ e r,
    (fun e : LC × List LC =>
      if !hasKeyP st.defaultImports e.1 && !e.2.isEmpty then some (⟨.defType, e.1, e.2⟩ : OutRec)
      else none) e = some r → r.path = e.1 := by
  intro e r hf
  simp only at hf
  split at hf
  · cases hf
    rfl
  · cases hf

theorem blockE_path {st : MapsState} : ∀ e r,
    (fun e : LC × List LC =>
      if !e.2.isEmpty then some (⟨.nsp, e.1, e.2⟩ : OutRec) else none) e = some r →
    r.path = e.1 := by
  intro e r hf
  simp only at hf
  split at hf
  · cases hf
    rfl
  · cases hf

def distinctPathKind (a b : OutRec) : Prop := ¬(a.path = b.path ∧ a.kind = b.kind)

theorem outputRecords_pairwise (ss : List LC) :
    (outputRecords ss).Pairwise distinctPathKind := by
  obtain ⟨g1, g2, g3, g4, g5⟩ := goodKeys_buildMaps ss
  unfold outputRecords
  simp only [List.append_assoc]
  have pwA : (blockARec (buildMaps ss)).Pairwise distinctPathKind :=
    (pairwise_path_filterMap g1 (@blockA_path (buildMaps ss))).imp
      (fun hne h => hne h.1)
  have pwB : (blockBRec (buildMaps ss)).Pairwise distinctPathKind :=
    (pairwise_path_filterMap g2 (@blockB_path (buildMaps ss))).imp
      (fun hne h => hne h.1)
  have pwC : (blockCRec (buildMaps ss)).Pairwise distinctPathKind :=
    (pairwise_path_filterMap g3 (@blockC_path (buildMaps ss))).imp
      (fun hne h => hne h.1)
  have pwD : (blockDRec (buildMaps ss)).Pairwise distinctPathKind :=
    (pairwise_path_filterMap g4 (@blockD_path (buildMaps ss))).imp
      (fun hne h => hne h.1)
  have pwE : (blockERec (buildMaps ss)).Pairwise distinctPathKind :=
    (pairwise_path_filterMap g5 (@blockE_path (buildMaps ss))).imp
      (fun hne h => hne h.1)
  have kindA := fun {o} (h : o ∈ blockARec (buildMaps ss)) => (blockA_elim h).1
  have kindB := fun {o} (h : o ∈ blockBRec (buildMaps ss)) => (blockB_elim h).1
  have kindC := fun {o} (h : o ∈ blockCRec (buildMaps ss)) => (blockC_elim h).1
  have kindD := fun {o} (h : o ∈ blockDRec (buildMaps ss)) => (blockD_elim h).1
  have kindE := fun {o} (h : o ∈ blockERec (buildMaps ss)) => (blockE_elim h).1
  rw [List.pairwise_append]
  refine ⟨pwA, ?_, ?_⟩
  · rw [List.pairwise_append]
    refine ⟨pwB, ?_, ?_⟩
    · rw [List.pairwise_append]
      refine ⟨pwC, ?_, ?_⟩
      · rw [List.pairwise_append]
        refine ⟨pwD, pwE, ?_⟩
        intro a ha b hb h
        rw [kindD ha, kindE hb] at h
        cases h.2
      · intro a ha b hb h
        rcases List.mem_append.mp hb with hb1 | hb2
        · rw [kindC ha, kindD hb1] at h
          cases h.2
        · rw [kindC ha, kindE hb2] at h
          cases h.2
    · intro a ha b hb h
      rcases List.mem_append.mp hb with hb1 | hb0
      · rw [kindB ha, kindC hb1] at h
        cases h.2
      · rcases List.mem_append.mp hb0 with hb2 | hb3
        · rw [kindB ha, kindD hb2] at h
          cases h.2
        · rw [kindB ha, kindE hb3] at h
          cases h.2
  · intro a ha b hb h
    rcases List.mem_append.mp hb with hb1 | hb0
    · rw [kindA ha, kindB hb1] at h
      cases h.2
    · rcases List.mem_append.mp hb0 with hb2 | hb00
      · rw [kindA ha, kindC hb2] at h
        cases h.2
      · rcases List.mem_append.mp hb00 with hb3 | hb4
        · rw [kindA ha, kindD hb3] at h
          cases h.2
        · rw [kindA ha, kindE hb4] at h
          cases h.2

theorem mem_out_A {ss : List LC} {o : OutRec} (h : o ∈ blockARec (buildMaps ss)) :
    o ∈ outputRecords ss := by
  unfold outputRecords
  simp only [List.append_assoc, List.mem_append]
  tauto

theorem mem_out_B {ss : List LC} {o : OutRec} (h : o ∈ blockBRec (buildMaps ss)) :
    o ∈ outputRecords ss := by
  unfold outputRecords
  simp only [List.append_assoc, List.mem_append]
  tauto

theorem mem_out_C {ss : List LC} {o : OutRec} (h : o ∈ blockCRec (buildMaps ss)) :
    o ∈ outputRecords ss := by
  unfold outputRecords
  simp only [List.append_assoc, List.mem_append]
  tauto

theorem mem_out_D {ss : List LC} {o : OutRec} (h : o ∈ blockDRec (buildMaps ss)) :
    o ∈ outputRecords ss := by
  unfold outputRecords
  simp only [List.append_assoc, List.mem_append]
  tauto

theorem mem_out_E {ss : List LC} {o : OutRec} (h : o ∈ blockERec (buildMaps ss)) :
    o ∈ outputRecords ss := by
  unfold outputRecords
  simp only [List.append_assoc, List.mem_append]
  tauto

/- Every binding name a statement contributes reaches some output record for
   the same module path. -/
theorem name_preserved {ss : List LC} {k : MKind} {p n : LC}
    (h : contributesName ss k p n) :
    ∃ o ∈ outputRecords ss, o.path = p ∧ n ∈ o.names := by
  have hmm := memMap_buildMaps_of_contributes h
  cases k with
  | namedVal =>
    obtain ⟨t, hl, hn⟩ := hmm
    obtain ⟨fin, hmem, hfin⟩ := mem_blockA_of hl hn
    exact ⟨_, mem_out_A hmem, rfl, hfin⟩
  | namedType =>
    obtain ⟨u, hu, hn⟩ := hmm
    cases hk : hasKeyP (buildMaps ss).importMap p with
    | true =>
      obtain ⟨t, hl⟩ := Option.isSome_iff_exists.mp hk
      obtain ⟨fin, hmem, hfin⟩ := mem_blockA_type_of hl hu hn
      exact ⟨_, mem_out_A hmem, rfl, hfin⟩
    | false =>
      exact ⟨_, mem_out_B (mem_blockB_of hu hn hk), rfl, hn⟩
  | defVal =>
    obtain ⟨t, hl, hn⟩ := hmm
    obtain ⟨fin, hmem, hfin⟩ := mem_blockC_of hl hn
    exact ⟨_, mem_out_C hmem, rfl, hfin⟩
  | defType =>
    obtain ⟨u, hu, hn⟩ := hmm
    cases hk : hasKeyP (buildMaps ss).defaultImports p with
    | true =>
      obtain ⟨t, hl⟩ := Option.isSome_iff_exists.mp hk
      obtain ⟨fin, hmem, hfin⟩ := mem_blockC_type_of hl hu hn
      exact ⟨_, mem_out_C hmem, rfl, hfin⟩
    | false =>
      exact ⟨_, mem_out_D (mem_blockD_of hu hn hk), rfl, hn⟩
  | nsp =>
    obtain ⟨u, hu, hn⟩ := hmm
    exact ⟨_, mem_out_E (mem_blockE_of hu hn), rfl, hn⟩

theorem mem_out_cases {ss : List LC} {o : OutRec} (h : o ∈ outputRecords ss) :
    o ∈ blockARec (buildMaps ss) ∨ o ∈ blockBRec (buildMaps ss) ∨
      o ∈ blockCRec (buildMaps ss) ∨ o ∈ blockDRec (buildMaps ss) ∨
      o ∈ blockERec (buildMaps ss) := by
  unfold outputRecords at h
  simp only [List.append_assoc, List.mem_append] at h
  tauto

/- Every output record path originates from some parsed input statement. -/
theorem out_path_src {ss : List LC} {o : OutRec} (h : o ∈ outputRecords ss) :
    ∃ k, contributesKey ss k o.path := by
  rcases mem_out_cases h with hA | hB | hC | hD | hE
  · obtain ⟨-, t, hm⟩ := blockA_elim hA
    exact ⟨.namedVal, hasKeyP_buildMaps_src (k := .namedVal) (hasKeyP_of_mem hm)⟩
  · obtain ⟨-, -, t, hm⟩ := blockB_elim hB
    exact ⟨.namedType, hasKeyP_buildMaps_src (k := .namedType) (hasKeyP_of_mem hm)⟩
  · obtain ⟨-, t, hm⟩ := blockC_elim hC
    exact ⟨.defVal, hasKeyP_buildMaps_src (k := .defVal) (hasKeyP_of_mem hm)⟩
  · obtain ⟨-, -, t, hm⟩ := blockD_elim hD
    exact ⟨.defType, hasKeyP_buildMaps_src (k := .defType) (hasKeyP_of_mem hm)⟩
  · obtain ⟨-, t, hm⟩ := blockE_elim hE
    exact ⟨.nsp, hasKeyP_buildMaps_src (k := .nsp) (hasKeyP_of_mem hm)⟩

/- The type-only shape emitted for the value shape of the same form. -/
def typeTwin : MKind → MKind
  | .namedVal => .namedType
  | .defVal => .defType
  | k => k

/-- C1 (amended): within one import form, value bindings dominate type-only
bindings.  If some input statement contributes a value binding of kind k
(named or default form) for module path p, then the output has a record of
that value kind for p containing every such name, and no type-only record of
the same form (the typeTwin of k) is emitted for p at all.  The original
claim, which also forbids cross-form type-only survivors, is refuted by
c1_cross_form_counterexample. -/
theorem c1_value_dominates_type_same_form (ss : List LC) (p n : LC) (k : MKind)
    (hk : k = MKind.namedVal ∨ k = MKind.defVal)
    (h : contributesName ss k p n) :
    (∃ o ∈ outputRecords ss, o.kind = k ∧ o.path = p ∧ n ∈ o.names) ∧
      ∀ o ∈ outputRecords ss, ¬(o.kind = typeTwin k ∧ o.path = p) := by
  have hkey : hasKeyP (mapForK (buildMaps ss) k) p = true := by
    obtain ⟨s, hs, c, hc, hck, hcp, -⟩ := h
    exact hasKeyP_buildMaps_of_contributes ⟨s, hs, c, hc, hck, hcp⟩
  have hmm := memMap_buildMaps_of_contributes h
  rcases hk with hk | hk <;> subst hk
  · obtain ⟨t, hl, hn⟩ := hmm
    obtain ⟨fin, hmem, hfin⟩ := mem_blockA_of hl hn
    refine ⟨⟨_, mem_out_A hmem, rfl, rfl, hfin⟩, ?_⟩
    intro o ho hcontra
    rcases mem_out_cases ho with hA | hB | hC | hD | hE
    · rw [(blockA_elim hA).1] at hcontra
      cases hcontra.1
    · obtain ⟨-, hno, -⟩ := blockB_elim hB
      rw [hcontra.2] at hno
      rw [show mapForK (buildMaps ss) MKind.namedVal = (buildMaps ss).importMap from rfl] at hkey
      rw [hkey] at hno
      cases hno
    · rw [(blockC_elim hC).1] at hcontra
      cases hcontra.1
    · rw [(blockD_elim hD).1] at hcontra
      cases hcontra.1
    · rw [(blockE_elim hE).1] at hcontra
      cases hcontra.1
  · obtain ⟨t, hl, hn⟩ := hmm
    obtain ⟨fin, hmem, hfin⟩ := mem_blockC_of hl hn
    refine ⟨⟨_, mem_out_C hmem, rfl, rfl, hfin⟩, ?_⟩
    intro o ho hcontra
    rcases mem_out_cases ho with hA | hB | hC | hD | hE
    · rw [(blockA_elim hA).1] at hcontra
      cases hcontra.1
    · rw [(blockB_elim hB).1] at hcontra
      cases hcontra.1
    · rw [(blockC_elim hC).1] at hcontra
      cases hcontra.1
    · obtain ⟨-, hno, -⟩ := blockD_elim hD
      rw [hcontra.2] at hno
      rw [show mapForK (buildMaps ss) MKind.defVal = (buildMaps ss).defaultImports from rfl] at hkey
      rw [hkey] at hno
      cases hno
    · rw [(blockE_elim hE).1] at hcontra
      cases hcontra.1

/-- C1 witness: at the concrete input consisting of a named value import of x
from module m together with a type-only named import of x from m, the theorem
yields a value record containing x and the absence of any type-only named
record for m. -/
theorem c1_value_dominates_type_same_form_witness :
    (∃ o ∈ outputRecords [strL "import \x7b x \x7d from \"m\";", strL "import type \x7b x \x7d from \"m\";"],
        o.kind = MKind.namedVal ∧ o.path = strL "m" ∧ strL "x" ∈ o.names) ∧
      ∀ o ∈ outputRecords [strL "import \x7b x \x7d from \"m\";", strL "import type \x7b x \x7d from \"m\";"],
        ¬(o.kind = typeTwin MKind.namedVal ∧ o.path = strL "m") :=
  c1_value_dominates_type_same_form _ (strL "m") (strL "x") MKind.namedVal (Or.inl rfl)
    ⟨strL "import \x7b x \x7d from \"m\";", by decide,
      ⟨MKind.namedVal, strL "m", [strL "x"]⟩, by decide, rfl, rfl, by decide⟩

/-- C1 counterexample: the claim as stated is false across forms.  With a
named value import of x from m and a type-only default import of x from m,
mergeImports emits the type-only default statement for x unchanged, so the
output does contain x in a type-only statement for module path m. -/
theorem c1_cross_form_counterexample :
    parseC (strL "import \x7b x \x7d from \"m\";") =
        some ⟨MKind.namedVal, strL "m", [strL "x"]⟩ ∧
      parseC (strL "import type x from \"m\";") =
        some ⟨MKind.defType, strL "m", [strL "x"]⟩ ∧
      (⟨MKind.defType, strL "m", [strL "x"]⟩ : OutRec) ∈
        outputRecords [strL "import \x7b x \x7d from \"m\";", strL "import type x from \"m\";"] ∧
      strL "import type x from \"m\";" ∈
        mergeImports [strL "import \x7b x \x7d from \"m\";", strL "import type x from \"m\";"] := by
  refine ⟨by decide, by decide, by decide, by decide⟩

/- Value or type category of a shape (the binary classification). -/
def valueCat : MKind → Bool
  | .namedVal => true
  | .defVal => true
  | .nsp => true
  | .namedType => false
  | .defType => false

/-- C2 (amended): every binding name a statement contributes appears in some
output record for the same module path, and the emitted records are pairwise
distinct in (module path, shape category), so no binding name can appear in
two emitted statements of the same module path and the same shape (named,
default or namespace crossed with value or type).  The original claim, which
asserts uniqueness per module path and binary value/type category only, is
refuted by c2_two_value_statements_counterexample. -/
theorem c2_names_preserved_unique_per_shape (ss : List LC) :
    (∀ s ∈ ss, ∀ c : Contribution, parseC s = some c → ∀ n ∈ c.names,
        ∃ o ∈ outputRecords ss, o.path = c.path ∧ n ∈ o.names) ∧
      (outputRecords ss).Pairwise distinctPathKind := by
  refine ⟨?_, outputRecords_pairwise ss⟩
  intro s hs c hc n hn
  exact name_preserved ⟨s, hs, c, hc, rfl, rfl, hn⟩

/-- C2 witness: at a concrete two-statement input the theorem gives an output
record for module m containing x, and the pairwise distinctness of the
emitted records. -/
theorem c2_names_preserved_unique_per_shape_witness :
    (∃ o ∈ outputRecords [strL "import \x7b x, y \x7d from \"m\";", strL "import \x7b x \x7d from \"m\";"],
        o.path = strL "m" ∧ strL "y" ∈ o.names) ∧
      (outputRecords [strL "import \x7b x, y \x7d from \"m\";", strL "import \x7b x \x7d from \"m\";"]).Pairwise
        distinctPathKind := by
  refine ⟨?_, (c2_names_preserved_unique_per_shape _).2⟩
  have h := (c2_names_preserved_unique_per_shape
    [strL "import \x7b x, y \x7d from \"m\";", strL "import \x7b x \x7d from \"m\";"]).1
    (strL "import \x7b x, y \x7d from \"m\";") (by decide)
    ⟨MKind.namedVal, strL "m", [strL "x", strL "y"]⟩ (by decide) (strL "y") (by decide)
  exact h

/-- C2 counterexample: the claim as stated is false.  Given a named value
binding of x from m together with a default value binding of x from m,
mergeImports emits two distinct statements for module path m, both of the
value category, each containing the binding name x. -/
theorem c2_two_value_statements_counterexample :
    outputRecords [strL "import \x7b x \x7d from \"m\";", strL "import x from \"m\";"] =
        [⟨MKind.namedVal, strL "m", [strL "x"]⟩, ⟨MKind.defVal, strL "m", [strL "x"]⟩] ∧
      (⟨MKind.namedVal, strL "m", [strL "x"]⟩ : OutRec) ≠ ⟨MKind.defVal, strL "m", [strL "x"]⟩ ∧
      valueCat MKind.namedVal = true ∧ valueCat MKind.defVal = true ∧
      mergeImports [strL "import \x7b x \x7d from \"m\";", strL "import x from \"m\";"] =
        [strL "import x from \"m\";", strL "import \x7b x \x7d from \"m\";"] := by
  refine ⟨by decide, by decide, rfl, rfl, by decide⟩

/- Relative module specifier: begins with a single- or double-dot prefix. -/
def isRelative (p : LC) : Bool := isPreB (strL "./") p || isPreB (strL "../") p

/- One attempt of the bundler filter regexp ["']((?!\.\/|\.\.\/)[^"']+)["']
   (src/src/remove/imports.ts line 296) at the head of s. -/
def filterTestAt (s : LC) : Bool :=
  match s with
  | [] => false
  | c :: rest =>
    isQuoteC c && !isPreB (strL "./") rest && !isPreB (strL "../") rest &&
      (let run := rest.takeWhile (fun d => !isQuoteC d)
       !run.isEmpty &&
         (match rest.drop run.length with
          | d :: _ => isQuoteC d
          | [] => false))

/- regexp.test: scan over start positions. -/
def regexpTest : LC → Bool
  | [] => false
  | c :: cs => filterTestAt (c :: cs) || regexpTest cs

/-- C3 (amended): mergeImports itself performs no relative-path filtering; a
relative-path statement passed to it comes out again (see
c3_relative_kept_counterexample).  In the bundle pipeline the removed
statements are first filtered with the quoted-specifier regexp, which rejects
a plain relative import statement; and whenever no input statement parses to
a relative module path, no output record of mergeImports carries a relative
module path. -/
theorem c3_relative_filtered_before_merge (ss : List LC)
    (h : ∀ s ∈ ss, ∀ c : Contribution, parseC s = some c → isRelative c.path = false) :
    (∀ o ∈ outputRecords ss, isRelative o.path = false) ∧
      regexpTest (strL "import \x7b x \x7d from \"./a\";") = false ∧
      regexpTest (strL "import x from \"pkg\";") = true := by
  refine ⟨?_, by decide, by decide⟩
  intro o ho
  obtain ⟨k, s, hs, c, hc, -, hp⟩ := out_path_src ho
  rw [← hp]
  exact h s hs c hc

/-- C3 witness: at a concrete input whose only statement imports from the
bare specifier pkg, the theorem gives that no output record is relative,
that the bundler filter rejects a relative statement, and that it keeps the
bare-specifier statement. -/
theorem c3_relative_filtered_before_merge_witness :
    (∀ o ∈ outputRecords [strL "import \x7b x \x7d from \"pkg\";"], isRelative o.path = false) ∧
      regexpTest (strL "import \x7b x \x7d from \"./a\";") = false ∧
      regexpTest (strL "import x from \"pkg\";") = true :=
  c3_relative_filtered_before_merge [strL "import \x7b x \x7d from \"pkg\";"]
    (by decide)

/-- C3 counterexample: the claim as stated is false of mergeImports.  A
statement importing from the relative path dot-slash-a fed directly to
mergeImports is present verbatim in its output. -/
theorem c3_relative_kept_counterexample :
    parseC (strL "import \x7b x \x7d from \"./a\";") =
        some ⟨MKind.namedVal, strL "./a", [strL "x"]⟩ ∧
      isRelative (strL "./a") = true ∧
      mergeImports [strL "import \x7b x \x7d from \"./a\";"] =
        [strL "import \x7b x \x7d from \"./a\";"] := by
  refine ⟨by decide, by decide, by decide⟩

theorem buildMaps_append (l1 l2 : List LC) :
    buildMaps (l1 ++ l2) = l2.foldl stepC (buildMaps l1) := by
  unfold buildMaps
  rw [List.foldl_append]

theorem outputRecords_congr {ss1 ss2 : List LC} (h : buildMaps ss1 = buildMaps ss2) :
    outputRecords ss1 = outputRecords ss2 := by
  unfold outputRecords
  rw [h]

/-- C9: a statement the main import regexp does not match, or whose clause
form yields no binding (such as the side-effect import of module m with no
bound name, which matches the main regexp with no clause but fails the
fallback word regexp), is skipped silently: it touches none of the maps, so
deleting it from the input leaves the output of mergeImports unchanged; and
the model is a total function, so no error is raised. -/
theorem c9_unmatched_statements_skipped :
    (∀ (l1 l2 : List LC) (s : LC), parseC s = none →
        mergeImports (l1 ++ s :: l2) = mergeImports (l1 ++ l2)) ∧
      parseC (strL "import \"m\";") = none ∧
      parseC (strL "const x = 1;") = none ∧
      mergeImports [strL "import \"m\";", strL "const x = 1;"] = [] := by
  refine ⟨?_, by decide, by decide, by decide⟩
  intro l1 l2 s h
  have hb : buildMaps (l1 ++ s :: l2) = buildMaps (l1 ++ l2) := by
    rw [buildMaps_append, buildMaps_append, List.foldl_cons, stepC_none h]
  unfold mergeImports
  rw [outputRecords_congr hb]

/-- C9 witness: deleting the side-effect import of module m from a concrete
input list leaves the merged output unchanged. -/
theorem c9_unmatched_statements_skipped_witness :
    mergeImports [strL "import a from \"x\";", strL "import \"m\";", strL "import b from \"y\";"] =
      mergeImports [strL "import a from \"x\";", strL "import b from \"y\";"] :=
  c9_unmatched_statements_skipped.1 [strL "import a from \"x\";"] [strL "import b from \"y\";"]
    (strL "import \"m\";") (by decide)

/- ===== Dual-format compiler post-processing (src/opt/compile.ts) ===== -/

/- JS String.prototype.replace with a plain string pattern: replaces the
   leftmost occurrence only.  An empty pattern replaces at position 0. -/
def replaceFirst (pat repl : LC) : LC → LC
  | [] => if isPreB pat [] then repl else []
  | c :: cs =>
    if isPreB pat (c :: cs) then repl ++ (c :: cs).drop pat.length
    else c :: replaceFirst pat repl cs

/- Modelled from the spec: the extension helper of the external utils
   collaborator (utils.extname), with the usual semantics of the platform
   path helper: the suffix of the basename from its last dot, empty when the
   basename has no dot after its first character. -/
def extname (s : LC) : LC :=
  let b := (s.reverse.takeWhile (fun c => !(c = '/'))).reverse
  match b with
  | [] => []
  | _ :: rest =>
    let revTail := rest.reverse
    let extRev := revTail.takeWhile (fun c => !(c = '.'))
    if extRev.length = revTail.length then [] else '.' :: extRev.reverse

/- An output hook: (code, file) to code. -/
abbrev OutHook := LC → LC → LC

def applyHooks (hooks : List OutHook) (outName content : LC) : LC :=
  hooks.foldl (fun c h => h c outName) content

/- The literal text substitutions of the dynamic-require compiler
   (compile.ts lines 56-65): in a .js artifact the first occurrence of the
   exports.default assignment is rewritten to module.exports, in a .ts
   artifact the first occurrence of the export-default statement is rewritten
   to an export-assignment. -/
def cjsTextSubst (outName content : LC) : LC :=
  let ext := extname outName
  let c1 :=
    if ext = strL ".js" then
      replaceFirst (strL "exports.default = bundle;") (strL "module.exports = bundle;") content
    else content
  if ext = strL ".ts" then
    replaceFirst (strL "export default bundle;") (strL "export = bundle;") c1
  else c1

/- Per-artifact text processing of the dynamic-require compiler (lines
   56-71): substitutions, then the hooks in registration order. -/
def cjsArtifactText (hooks : List OutHook) (outName content : LC) : LC :=
  let ext := extname outName
  let c1 :=
    if ext = strL ".js" then
      replaceFirst (strL "exports.default = bundle;") (strL "module.exports = bundle;") content
    else content
  let c2 :=
    if ext = strL ".ts" then
      replaceFirst (strL "export default bundle;") (strL "export = bundle;") c1
    else c1
  applyHooks hooks outName c2

/- Per-artifact text processing of the static-import compiler (lines
   123-128): only the hooks, no substitution. -/
def esmArtifactText (hooks : List OutHook) (outName content : LC) : LC :=
  applyHooks hooks outName content

/- ===== Output filename rewriting ===== -/

/- A regexp pattern over single characters: none is the unescaped dot. -/
abbrev RPat := List (Option Char)

def wildOK (c : Char) : Bool := isDotC c

def matchOne : Option Char → Char → Bool
  | none, c => wildOK c
  | some d, c => c = d

def matchP : RPat → LC → Bool
  | [], _ => true
  | _ :: _, [] => false
  | p :: ps, c :: cs => matchOne p c && matchP ps cs

/- JS String.prototype.replace with a /global/ regexp: leftmost
   non-overlapping matches, each replaced, scan resuming after each match.
   Implemented with a fuel argument (the fuel is always at least the length
   of the remaining text) so that the function is structurally recursive. -/
def repAllF (pat : RPat) (repl : LC) : Nat → LC → LC
  | _, [] => []
  | 0, s => s
  | fuel + 1, c :: cs =>
    if matchP pat (c :: cs) then repl ++ repAllF pat repl fuel (cs.drop (pat.length - 1))
    else c :: repAllF pat repl fuel cs

def repAll (pat : RPat) (repl : LC) (s : LC) : LC := repAllF pat repl s.length s

theorem repAllF_congr (pat : RPat) (repl : LC) :
    ∀ (f1 f2 : Nat) (s : LC), s.length ≤ f1 → s.length ≤ f2 →
      repAllF pat repl f1 s = repAllF pat repl f2 s := by
  intro f1
  induction f1 with
  | zero =>
    intro f2 s h1 h2
    have hs : s = [] := List.eq_nil_of_length_eq_zero (by omega)
    subst hs
    cases f2 <;> rfl
  | succ f1 ih =>
    intro f2 s h1 h2
    cases s with
    | nil => cases f2 <;> rfl
    | cons c cs =>
      cases f2 with
      | zero => simp at h2
      | succ f2 =>
        simp only [repAllF]
        by_cases hm : matchP pat (c :: cs) = true
        · rw [if_pos hm, if_pos hm]
          have hd : (cs.drop (pat.length - 1)).length ≤ f1 := by
            simp at h1 ⊢
            omega
          have hd2 : (cs.drop (pat.length - 1)).length ≤ f2 := by
            simp at h2 ⊢
            omega
          rw [ih f2 _ hd hd2]
        · rw [if_neg hm, if_neg hm]
          have hd : cs.length ≤ f1 := by simp at h1; omega
          have hd2 : cs.length ≤ f2 := by simp at h2; omega
          rw [ih f2 _ hd hd2]

theorem repAll_cons (pat : RPat) (repl : LC) (c : Char) (cs : LC) :
    repAll pat repl (c :: cs) =
      if matchP pat (c :: cs) then repl ++ repAll pat repl (cs.drop (pat.length - 1))
      else c :: repAll pat repl cs := by
  unfold repAll
  simp only [List.length_cons, repAllF]
  by_cases hm : matchP pat (c :: cs) = true
  · rw [if_pos hm, if_pos hm]
    rw [repAllF_congr pat repl cs.length (cs.drop (pat.length - 1)).length _
      (by simp) (by simp)]
  · rw [if_neg hm, if_neg hm]

/- The three filename rewrite patterns: /.js/ /.map.js/ /.d.ts/ with the
   dots unescaped, hence matching any non-terminator character. -/
def patJs : RPat := [none, some 'j', some 's']

def patMapJs : RPat := [none, some 'm', some 'a', some 'p', none, some 'j', some 's']

def patDTs : RPat := [none, some 'd', none, some 't', some 's']

/- compile.ts lines 72-74: outName.replace(/.js/g, ".cjs").replace(/.map.js/g,
   ".map.cjs").replace(/.d.ts/g, ".d.cts"). -/
def cjsOutName (n : LC) : LC :=
  repAll patDTs (strL ".d.cts") (repAll patMapJs (strL ".map.cjs") (repAll patJs (strL ".cjs") n))

/- compile.ts lines 129-131, the static-import variants. -/
def esmOutName (n : LC) : LC :=
  repAll patDTs (strL ".d.mts") (repAll patMapJs (strL ".map.mjs") (repAll patJs (strL ".mjs") n))

/- Modelled from the spec: the three artifact kinds the compiler backend
   emits for a virtual input file (script, script source map, type
   declaration), named by suffixing the common base name. -/
inductive ArtifactKind where
  | script
  | mapFile
  | decl
deriving DecidableEq

def artifactName (b : LC) : ArtifactKind → LC
  | .script => b ++ strL ".js"
  | .mapFile => b ++ strL ".js.map"
  | .decl => b ++ strL ".d.ts"


/- ===== Generic facts about the global regexp replace ===== -/

theorem matchP_length_le {pat : RPat} {s : LC} (h : matchP pat s = true) :
    pat.length ≤ s.length := by
  induction pat generalizing s with
  | nil => simp
  | cons p ps ih =>
    cases s with
    | nil => cases h
    | cons c cs =>
      simp only [matchP, Bool.and_eq_true] at h
      simpa using ih h.2

theorem matchP_append_of_le {pat : RPat} {s : LC} (h : pat.length ≤ s.length) (t : LC) :
    matchP pat (s ++ t) = matchP pat s := by
  induction pat generalizing s with
  | nil => simp [matchP]
  | cons p ps ih =>
    cases s with
    | nil => simp at h
    | cons c cs =>
      simp only [List.length_cons, Nat.add_le_add_iff_right] at h
      simp [matchP, ih (by simpa using h)]

theorem matchP_false_at {pat : RPat} {s : LC} {i : Nat} {d : Char}
    (hp : pat[i]? = some (some d)) (hs : ∀ e, s[i]? = some e → ¬ e = d) :
    matchP pat s = false := by
  induction i generalizing pat s with
  | zero =>
    cases pat with
    | nil => cases hp
    | cons p ps =>
      simp only [List.getElem?_cons_zero, Option.some.injEq] at hp
      subst hp
      cases s with
      | nil => rfl
      | cons c cs =>
        have hc : ¬ c = d := hs c (by simp)
        simp [matchP, matchOne, hc]
  | succ j ih =>
    cases pat with
    | nil => cases hp
    | cons p ps =>
      cases s with
      | nil => rfl
      | cons c cs =>
        have hrec : matchP ps cs = false :=
          ih (by simpa using hp) (fun e he => hs e (by simpa using he))
        simp [matchP, hrec]

/- No match can begin inside the last pat.length-1 characters before the
   suffix T: the pattern always hits a literal mismatch inside T. -/
def crossOK (pat : RPat) (T : LC) : Prop :=
  ∀ (a r : LC), a ≠ [] → a.length < pat.length → matchP pat (a ++ (T ++ r)) = false

/- Homomorphism: when no match can span into the suffix T and T itself is
   left unchanged, the global replace factors through the append. -/
theorem repAll_append (pat : RPat) (repl : LC) (T : LC) (hcross : crossOK pat T)
    (hT : repAll pat repl T = T) : ∀ s, repAll pat repl (s ++ T) = repAll pat repl s ++ T := by
  have main : ∀ (n : Nat) (s : LC), s.length = n →
      repAll pat repl (s ++ T) = repAll pat repl s ++ T := by
    intro n
    induction n using Nat.strong_induction_on with
    | _ n ihn =>
      intro s hs
      cases s with
      | nil =>
        have h0 : repAll pat repl ([] : LC) = [] := rfl
        rw [List.nil_append, hT, h0, List.nil_append]
      | cons c cs =>
        rw [List.cons_append]
        by_cases hm : matchP pat (c :: (cs ++ T)) = true
        · have hlen : pat.length ≤ (c :: cs).length := by
            by_contra hl
            have hne : (c :: cs) ≠ [] := by simp
            have hx := hcross (c :: cs) [] hne (by simp at hl ⊢; omega)
            rw [List.append_nil, List.cons_append] at hx
            rw [hx] at hm
            cases hm
          have hm2 : matchP pat (c :: cs) = true := by
            have hq := matchP_append_of_le hlen T
            rw [List.cons_append] at hq
            rw [← hq]
            exact hm
          rw [repAll_cons, if_pos hm, repAll_cons, if_pos hm2]
          have hdrop : (cs ++ T).drop (pat.length - 1) = cs.drop (pat.length - 1) ++ T := by
            exact List.drop_append_of_le_length (by simp at hlen; omega)
          rw [hdrop]
          rw [ihn ((cs.drop (pat.length - 1)).length) (by subst hs; simp; omega) _ rfl]
          simp [List.append_assoc]
        · have hm2 : matchP pat (c :: cs) = false := by
            by_cases hl : pat.length ≤ (c :: cs).length
            · have hq := matchP_append_of_le hl T
              rw [List.cons_append] at hq
              rw [← hq]
              simpa using hm
            · cases hmp : matchP pat (c :: cs) with
              | false => rfl
              | true => exact absurd (matchP_length_le hmp) hl
          rw [repAll_cons, if_neg (by simpa using hm), repAll_cons, if_neg (by simp [hm2])]
          rw [List.cons_append]
          rw [ihn cs.length (by subst hs; simp) cs rfl]
  exact fun s => main s.length s rfl

/- Trailing rewrite: when T is matched exactly by the pattern and no match
   spans into it, the global replace turns s ++ T into something ++ repl. -/
theorem repAll_trailing (pat : RPat) (repl : LC) (T : LC) (hpos : 0 < pat.length)
    (hcross : crossOK pat T) (hm : matchP pat T = true) (hlen : T.length = pat.length) :
    ∀ s, ∃ u, repAll pat repl (s ++ T) = u ++ repl := by
  have main : ∀ (n : Nat) (s : LC), s.length = n →
      ∃ u, repAll pat repl (s ++ T) = u ++ repl := by
    intro n
    induction n using Nat.strong_induction_on with
    | _ n ihn =>
      intro s hs
      cases s with
      | nil =>
        refine ⟨[], ?_⟩
        cases T with
        | nil =>
          exfalso
          simp at hlen
          omega
        | cons t ts =>
          rw [List.nil_append, repAll_cons, if_pos hm]
          have hd : ts.drop (pat.length - 1) = [] := by
            apply List.drop_eq_nil_of_le
            simp at hlen
            omega
          rw [hd]
          simp [repAll, repAllF]
      | cons c cs =>
        rw [List.cons_append]
        by_cases hmm : matchP pat (c :: (cs ++ T)) = true
        · have hl : pat.length ≤ (c :: cs).length := by
            by_contra hl
            have hne : (c :: cs) ≠ [] := by simp
            have hx := hcross (c :: cs) [] hne (by simp at hl ⊢; omega)
            rw [List.append_nil, List.cons_append] at hx
            rw [hx] at hmm
            cases hmm
          rw [repAll_cons, if_pos hmm]
          have hdrop : (cs ++ T).drop (pat.length - 1) = cs.drop (pat.length - 1) ++ T := by
            exact List.drop_append_of_le_length (by simp at hl; omega)
          rw [hdrop]
          obtain ⟨u, hu⟩ := ihn ((cs.drop (pat.length - 1)).length)
            (by subst hs; simp; omega) _ rfl
          refine ⟨repl ++ u, ?_⟩
          rw [hu]
          simp [List.append_assoc]
        · rw [repAll_cons, if_neg (by simpa using hmm)]
          obtain ⟨u, hu⟩ := ihn cs.length (by subst hs; simp) cs rfl
          refine ⟨c :: u, ?_⟩
          rw [hu]
          simp
  exact fun s => main s.length s rfl

/- Concrete no-span facts for the three rewrite patterns.  Each pattern has a
   literal that falls on a mismatching character of the suffix for every
   possible span offset. -/
theorem crossOK_patJs (T' : LC) : crossOK patJs ('.' :: T') := by
  intro a r ha hlen
  have hl3 : a.length < 3 := by simpa [patJs] using hlen
  rcases a with _ | ⟨c1, _ | ⟨c2, _ | ⟨c3, rest⟩⟩⟩
  · exact absurd rfl ha
  · apply matchP_false_at (i := 1) (d := 'j') rfl
    intro e he
    simp only [List.cons_append, List.nil_append, List.getElem?_cons_succ,
      List.getElem?_cons_zero, Option.some.injEq] at he
    subst he
    decide
  · apply matchP_false_at (i := 2) (d := 's') rfl
    intro e he
    simp only [List.cons_append, List.nil_append, List.getElem?_cons_succ,
      List.getElem?_cons_zero, Option.some.injEq] at he
    subst he
    decide
  · simp only [List.length_cons] at hl3
    omega

theorem crossOK_patMapJs (t1 : Char) (T' : LC) (ht1 : ¬ t1 = 'j') :
    crossOK patMapJs ('.' :: t1 :: T') := by
  intro a r ha hlen
  have hl7 : a.length < 7 := by simpa [patMapJs] using hlen
  rcases a with _ | ⟨c1, _ | ⟨c2, _ | ⟨c3, _ | ⟨c4, _ | ⟨c5, _ | ⟨c6, _ | ⟨c7, rest⟩⟩⟩⟩⟩⟩⟩
  · exact absurd rfl ha
  · apply matchP_false_at (i := 1) (d := 'm') rfl
    intro e he
    simp only [List.cons_append, List.nil_append, List.getElem?_cons_succ,
      List.getElem?_cons_zero, Option.some.injEq] at he
    subst he
    decide
  · apply matchP_false_at (i := 2) (d := 'a') rfl
    intro e he
    simp only [List.cons_append, List.nil_append, List.getElem?_cons_succ,
      List.getElem?_cons_zero, Option.some.injEq] at he
    subst he
    decide
  · apply matchP_false_at (i := 3) (d := 'p') rfl
    intro e he
    simp only [List.cons_append, List.nil_append, List.getElem?_cons_succ,
      List.getElem?_cons_zero, Option.some.injEq] at he
    subst he
    decide
  · apply matchP_false_at (i := 5) (d := 'j') rfl
    intro e he
    simp only [List.cons_append, List.nil_append, List.getElem?_cons_succ,
      List.getElem?_cons_zero, Option.some.injEq] at he
    subst he
    exact ht1
  · apply matchP_false_at (i := 5) (d := 'j') rfl
    intro e he
    simp only [List.cons_append, List.nil_append, List.getElem?_cons_succ,
      List.getElem?_cons_zero, Option.some.injEq] at he
    subst he
    decide
  · apply matchP_false_at (i := 6) (d := 's') rfl
    intro e he
    simp only [List.cons_append, List.nil_append, List.getElem?_cons_succ,
      List.getElem?_cons_zero, Option.some.injEq] at he
    subst he
    decide
  · simp only [List.length_cons] at hl7
    omega

theorem crossOK_patDTs (t1 : Char) (T' : LC) (ht1 : ¬ t1 = 't') :
    crossOK patDTs ('.' :: t1 :: T') := by
  intro a r ha hlen
  have hl5 : a.length < 5 := by simpa [patDTs] using hlen
  rcases a with _ | ⟨c1, _ | ⟨c2, _ | ⟨c3, _ | ⟨c4, _ | ⟨c5, rest⟩⟩⟩⟩⟩
  · exact absurd rfl ha
  · apply matchP_false_at (i := 1) (d := 'd') rfl
    intro e he
    simp only [List.cons_append, List.nil_append, List.getElem?_cons_succ,
      List.getElem?_cons_zero, Option.some.injEq] at he
    subst he
    decide
  · apply matchP_false_at (i := 3) (d := 't') rfl
    intro e he
    simp only [List.cons_append, List.nil_append, List.getElem?_cons_succ,
      List.getElem?_cons_zero, Option.some.injEq] at he
    subst he
    exact ht1
  · apply matchP_false_at (i := 3) (d := 't') rfl
    intro e he
    simp only [List.cons_append, List.nil_append, List.getElem?_cons_succ,
      List.getElem?_cons_zero, Option.some.injEq] at he
    subst he
    decide
  · apply matchP_false_at (i := 4) (d := 's') rfl
    intro e he
    simp only [List.cons_append, List.nil_append, List.getElem?_cons_succ,
      List.getElem?_cons_zero, Option.some.injEq] at he
    subst he
    decide
  · simp only [List.length_cons] at hl5
    omega

theorem ne_of_suffix_ne {u v s t : LC} (hl : s.length = t.length) (hne : s ≠ t) :
    u ++ s ≠ v ++ t :=
  fun h => hne (List.append_inj' h hl).2

/- Suffix shapes of the six rewritten artifact names. -/
theorem cjs_script_suffix (b : LC) : ∃ u, cjsOutName (b ++ strL ".js") = u ++ strL ".cjs" := by
  obtain ⟨u1, h1⟩ := repAll_trailing patJs (strL ".cjs") (strL ".js") (by decide)
    (crossOK_patJs (strL "js")) (by decide) (by decide) b
  unfold cjsOutName
  rw [h1]
  rw [repAll_append patMapJs (strL ".map.cjs") (strL ".cjs")
    (crossOK_patMapJs 'c' (strL "js") (by decide)) (by decide) u1]
  rw [repAll_append patDTs (strL ".d.cts") (strL ".cjs")
    (crossOK_patDTs 'c' (strL "js") (by decide)) (by decide)]
  exact ⟨_, rfl⟩

theorem esm_script_suffix (b : LC) : ∃ u, esmOutName (b ++ strL ".js") = u ++ strL ".mjs" := by
  obtain ⟨u1, h1⟩ := repAll_trailing patJs (strL ".mjs") (strL ".js") (by decide)
    (crossOK_patJs (strL "js")) (by decide) (by decide) b
  unfold esmOutName
  rw [h1]
  rw [repAll_append patMapJs (strL ".map.mjs") (strL ".mjs")
    (crossOK_patMapJs 'm' (strL "js") (by decide)) (by decide) u1]
  rw [repAll_append patDTs (strL ".d.mts") (strL ".mjs")
    (crossOK_patDTs 'm' (strL "js") (by decide)) (by decide)]
  exact ⟨_, rfl⟩

theorem cjs_map_suffix (b : LC) :
    ∃ u, cjsOutName (b ++ strL ".js.map") = u ++ strL ".cjs.map" := by
  have hsplit : b ++ strL ".js.map" = (b ++ strL ".js") ++ strL ".map" := by
    rw [List.append_assoc]
    rfl
  obtain ⟨u1, h1⟩ := repAll_trailing patJs (strL ".cjs") (strL ".js") (by decide)
    (crossOK_patJs (strL "js")) (by decide) (by decide) b
  unfold cjsOutName
  rw [hsplit]
  rw [repAll_append patJs (strL ".cjs") (strL ".map")
    (crossOK_patJs (strL "map")) (by decide)]
  rw [h1]
  have hjoin : (u1 ++ strL ".cjs") ++ strL ".map" = u1 ++ strL ".cjs.map" := by
    rw [List.append_assoc]
    rfl
  rw [hjoin]
  rw [repAll_append patMapJs (strL ".map.cjs") (strL ".cjs.map")
    (crossOK_patMapJs 'c' (strL "js.map") (by decide)) (by decide) u1]
  rw [repAll_append patDTs (strL ".d.cts") (strL ".cjs.map")
    (crossOK_patDTs 'c' (strL "js.map") (by decide)) (by decide)]
  exact ⟨_, rfl⟩

theorem esm_map_suffix (b : LC) :
    ∃ u, esmOutName (b ++ strL ".js.map") = u ++ strL ".mjs.map" := by
  have hsplit : b ++ strL ".js.map" = (b ++ strL ".js") ++ strL ".map" := by
    rw [List.append_assoc]
    rfl
  obtain ⟨u1, h1⟩ := repAll_trailing patJs (strL ".mjs") (strL ".js") (by decide)
    (crossOK_patJs (strL "js")) (by decide) (by decide) b
  unfold esmOutName
  rw [hsplit]
  rw [repAll_append patJs (strL ".mjs") (strL ".map")
    (crossOK_patJs (strL "map")) (by decide)]
  rw [h1]
  have hjoin : (u1 ++ strL ".mjs") ++ strL ".map" = u1 ++ strL ".mjs.map" := by
    rw [List.append_assoc]
    rfl
  rw [hjoin]
  rw [repAll_append patMapJs (strL ".map.mjs") (strL ".mjs.map")
    (crossOK_patMapJs 'm' (strL "js.map") (by decide)) (by decide) u1]
  rw [repAll_append patDTs (strL ".d.mts") (strL ".mjs.map")
    (crossOK_patDTs 'm' (strL "js.map") (by decide)) (by decide)]
  exact ⟨_, rfl⟩

theorem cjs_decl_suffix (b : LC) :
    ∃ u, cjsOutName (b ++ strL ".d.ts") = u ++ strL ".d.cts" := by
  unfold cjsOutName
  rw [repAll_append patJs (strL ".cjs") (strL ".d.ts")
    (crossOK_patJs (strL "d.ts")) (by decide)]
  rw [repAll_append patMapJs (strL ".map.cjs") (strL ".d.ts")
    (crossOK_patMapJs 'd' (strL ".ts") (by decide)) (by decide)]
  exact repAll_trailing patDTs (strL ".d.cts") (strL ".d.ts") (by decide)
    (crossOK_patDTs 'd' (strL ".ts") (by decide)) (by decide) (by decide) _

theorem esm_decl_suffix (b : LC) :
    ∃ u, esmOutName (b ++ strL ".d.ts") = u ++ strL ".d.mts" := by
  unfold esmOutName
  rw [repAll_append patJs (strL ".mjs") (strL ".d.ts")
    (crossOK_patJs (strL "d.ts")) (by decide)]
  rw [repAll_append patMapJs (strL ".map.mjs") (strL ".d.ts")
    (crossOK_patMapJs 'd' (strL ".ts") (by decide)) (by decide)]
  exact repAll_trailing patDTs (strL ".d.mts") (strL ".d.ts") (by decide)
    (crossOK_patDTs 'd' (strL ".ts") (by decide)) (by decide) (by decide) _

/-- C6: the per-dialect filename rewrites always produce distinct names: for
every base name and every pair of artifact kinds the backend emits (script,
script source map, type declaration), the dynamic-require rewrite of the one
name differs from the static-import rewrite of the other, so the two compiled
artifact sets are disjoint on disk.  The artifact name shapes are modelled
from the spec (the compiler backend is an external collaborator). -/
theorem c6_dialect_outnames_disjoint (b : LC) (k1 k2 : ArtifactKind) :
    cjsOutName (artifactName b k1) ≠ esmOutName (artifactName b k2) := by
  have hcm : strL ".cjs.map" = strL ".cjs" ++ strL ".map" := by decide
  have hmm2 : strL ".mjs.map" = strL ".mjs" ++ strL ".map" := by decide
  have hdc : strL ".d.cts" = strL ".d" ++ strL ".cts" := by decide
  have hdm : strL ".d.mts" = strL ".d" ++ strL ".mts" := by decide
  cases k1 with
  | script =>
    obtain ⟨u, hu⟩ := cjs_script_suffix b
    cases k2 with
    | script =>
      obtain ⟨v, hv⟩ := esm_script_suffix b
      simp only [artifactName]
      rw [hu, hv]
      exact ne_of_suffix_ne (by decide) (by decide)
    | mapFile =>
      obtain ⟨v, hv⟩ := esm_map_suffix b
      simp only [artifactName]
      rw [hu, hv, hmm2, ← List.append_assoc]
      exact ne_of_suffix_ne (by decide) (by decide)
    | decl =>
      obtain ⟨v, hv⟩ := esm_decl_suffix b
      simp only [artifactName]
      rw [hu, hv, hdm, ← List.append_assoc]
      exact ne_of_suffix_ne (by decide) (by decide)
  | mapFile =>
    obtain ⟨u, hu⟩ := cjs_map_suffix b
    cases k2 with
    | script =>
      obtain ⟨v, hv⟩ := esm_script_suffix b
      simp only [artifactName]
      rw [hu, hv, hcm, ← List.append_assoc]
      exact ne_of_suffix_ne (by decide) (by decide)
    | mapFile =>
      obtain ⟨v, hv⟩ := esm_map_suffix b
      simp only [artifactName]
      rw [hu, hv]
      exact ne_of_suffix_ne (by decide) (by decide)
    | decl =>
      obtain ⟨v, hv⟩ := esm_decl_suffix b
      simp only [artifactName]
      rw [hu, hv, hcm, hdm, ← List.append_assoc,
        ← List.append_assoc]
      exact ne_of_suffix_ne (by decide) (by decide)
  | decl =>
    obtain ⟨u, hu⟩ := cjs_decl_suffix b
    cases k2 with
    | script =>
      obtain ⟨v, hv⟩ := esm_script_suffix b
      simp only [artifactName]
      rw [hu, hv, hdc, ← List.append_assoc]
      exact ne_of_suffix_ne (by decide) (by decide)
    | mapFile =>
      obtain ⟨v, hv⟩ := esm_map_suffix b
      simp only [artifactName]
      rw [hu, hv, hdc, hmm2, ← List.append_assoc,
        ← List.append_assoc]
      exact ne_of_suffix_ne (by decide) (by decide)
    | decl =>
      obtain ⟨v, hv⟩ := esm_decl_suffix b
      simp only [artifactName]
      rw [hu, hv]
      exact ne_of_suffix_ne (by decide) (by decide)

/-- C5 (amended): both literal text substitutions live in the dynamic-require
compiler and run before its output hooks: script artifacts get the
exports-default-assignment to module-exports rewrite and declaration
artifacts get the export-default to export-assignment rewrite, and each hook
receives the already-substituted text.  The static-import compiler applies no
text substitution at all: its hooks receive the emitted text unchanged.  The
original claim, which attributes the declaration-artifact rewrite to the
static-import compiler, is refuted by c5_esm_no_substitution_counterexample. -/
theorem c5_substitutions_in_cjs_before_hooks :
    (∀ (hooks : List OutHook) (outName content : LC),
        cjsArtifactText hooks outName content =
          applyHooks hooks outName (cjsTextSubst outName content)) ∧
      (∀ (hooks : List OutHook) (outName content : LC),
        esmArtifactText hooks outName content = applyHooks hooks outName content) ∧
      cjsTextSubst (strL "bundle.js") (strL "exports.default = bundle;") =
        strL "module.exports = bundle;" ∧
      cjsTextSubst (strL "bundle.d.ts") (strL "export default bundle;") =
        strL "export = bundle;" :=
  ⟨fun _ _ _ => rfl, fun _ _ _ => rfl, by decide, by decide⟩

/-- C5 counterexample: the static-import compiler performs no converse
rewrite inside declaration artifacts: with no hooks, a declaration artifact
whose text is the export-assignment idiom passes through the static-import
compiler unchanged, and likewise for the exports-default assignment, where
the claim requires a substitution to have been applied. -/
theorem c5_esm_no_substitution_counterexample :
    esmArtifactText [] (strL "bundle.d.ts") (strL "export = bundle;") =
        strL "export = bundle;" ∧
      esmArtifactText [] (strL "bundle.d.ts") (strL "export default bundle;") =
        strL "export default bundle;" ∧
      strL "export = bundle;" ≠ strL "export default bundle;" :=
  ⟨rfl, rfl, by decide⟩

/- ===== First-occurrence facts about the plain string replace ===== -/

theorem isPreB_append_self {pat s : LC} (h : isPreB pat s = true) :
    pat ++ s.drop pat.length = s := by
  induction pat generalizing s with
  | nil => simp
  | cons p ps ih =>
    cases s with
    | nil => cases h
    | cons c cs =>
      simp only [isPreB, Bool.and_eq_true, decide_eq_true_eq] at h
      obtain ⟨h1, h2⟩ := h
      subst h1
      simpa using ih h2

theorem isPreB_of_append {pat u : LC} (h : isPreB pat u = true) (w : LC) :
    isPreB pat (u ++ w) = true := by
  induction pat generalizing u with
  | nil => rfl
  | cons p ps ih =>
    cases u with
    | nil => cases h
    | cons c cs =>
      simp only [isPreB, Bool.and_eq_true, decide_eq_true_eq] at h ⊢
      exact ⟨h.1, by simpa using ih h.2⟩

theorem replaceFirst_no_occurrence {pat repl s : LC} (h : containsSub pat s = false) :
    replaceFirst pat repl s = s := by
  induction s with
  | nil =>
    simp only [containsSub] at h
    simp [replaceFirst, h]
  | cons c cs ih =>
    simp only [containsSub, Bool.or_eq_false_iff] at h
    simp only [replaceFirst, h.1, Bool.false_eq_true, if_false]
    rw [ih h.2]

theorem replaceFirst_first_occurrence {pat repl s : LC} (hp : pat ≠ [])
    (h : containsSub pat s = true) :
    ∃ a b, s = a ++ pat ++ b ∧ containsSub pat a = false ∧
      replaceFirst pat repl s = a ++ repl ++ b := by
  induction s with
  | nil =>
    exfalso
    simp only [containsSub] at h
    cases pat with
    | nil => exact hp rfl
    | cons p ps => cases h
  | cons c cs ih =>
    by_cases hpre : isPreB pat (c :: cs) = true
    · refine ⟨[], (c :: cs).drop pat.length, ?_, ?_, ?_⟩
      · rw [List.nil_append, isPreB_append_self hpre]
      · simp only [containsSub]
        cases pat with
        | nil => exact absurd rfl hp
        | cons p ps => rfl
      · simp only [replaceFirst, hpre, if_true, List.nil_append]
    · simp only [containsSub, hpre, Bool.false_or] at h
      obtain ⟨a, b, hsplit, hnone, hrepl⟩ := ih h
      refine ⟨c :: a, b, ?_, ?_, ?_⟩
      · rw [List.cons_append, List.cons_append, ← hsplit]
      · simp only [containsSub, hnone, Bool.or_false]
        cases hca : isPreB pat (c :: a) with
        | false => rfl
        | true =>
          exfalso
          have hext := isPreB_of_append hca (pat ++ b)
          have h2 : (c :: a) ++ (pat ++ b) = c :: cs := by
            rw [hsplit]
            simp [List.append_assoc]
          rw [h2] at hext
          exact hpre hext
      · simp only [replaceFirst, hpre, Bool.false_eq_true, if_false]
        rw [hrepl]
        simp

/-- C10: in the dynamic-require compiler the script substitution replaces
only the first occurrence of the exact literal exports-default assignment of
the binding named bundle (leaving everything before and after intact,
including later occurrences), the declaration substitution does the same
with the export-default statement of bundle, and an artifact whose text
contains no such literal (for instance a default export under any other
binding name) passes through the substitution phase unchanged. -/
theorem c10_substitution_first_occurrence_only (outName content : LC) :
    (extname outName = strL ".js" →
        containsSub (strL "exports.default = bundle;") content = true →
        ∃ a b, content = a ++ strL "exports.default = bundle;" ++ b ∧
          containsSub (strL "exports.default = bundle;") a = false ∧
          cjsTextSubst outName content = a ++ strL "module.exports = bundle;" ++ b) ∧
      (extname outName = strL ".js" →
        containsSub (strL "exports.default = bundle;") content = false →
        cjsTextSubst outName content = content) ∧
      (extname outName = strL ".ts" →
        containsSub (strL "export default bundle;") content = true →
        ∃ a b, content = a ++ strL "export default bundle;" ++ b ∧
          containsSub (strL "export default bundle;") a = false ∧
          cjsTextSubst outName content = a ++ strL "export = bundle;" ++ b) ∧
      (extname outName = strL ".ts" →
        containsSub (strL "export default bundle;") content = false →
        cjsTextSubst outName content = content) := by
  have hne : strL ".js" ≠ strL ".ts" := by decide
  refine ⟨?_, ?_, ?_, ?_⟩
  · intro hext hocc
    obtain ⟨a, b, hsplit, hnone, hrepl⟩ :=
      @replaceFirst_first_occurrence (strL "exports.default = bundle;")
        (strL "module.exports = bundle;") content (by decide) hocc
    refine ⟨a, b, hsplit, hnone, ?_⟩
    unfold cjsTextSubst
    rw [hext]
    simp only [if_pos rfl, if_neg hne]
    exact hrepl
  · intro hext hocc
    unfold cjsTextSubst
    rw [hext]
    simp only [if_pos rfl, if_neg hne]
    exact replaceFirst_no_occurrence hocc
  · intro hext hocc
    obtain ⟨a, b, hsplit, hnone, hrepl⟩ :=
      @replaceFirst_first_occurrence (strL "export default bundle;")
        (strL "export = bundle;") content (by decide) hocc
    refine ⟨a, b, hsplit, hnone, ?_⟩
    unfold cjsTextSubst
    rw [hext]
    simp only [if_neg (Ne.symm hne), if_pos rfl]
    exact hrepl
  · intro hext hocc
    unfold cjsTextSubst
    rw [hext]
    simp only [if_neg (Ne.symm hne), if_pos rfl]
    exact replaceFirst_no_occurrence hocc

/-- C10 witness: in a script artifact containing the exports-default
assignment of bundle twice, only the first occurrence is replaced; and a
script artifact exporting a binding of a different name passes through
unchanged. -/
theorem c10_substitution_first_occurrence_only_witness :
    (∃ a b,
        strL "exports.default = bundle;exports.default = bundle;" =
            a ++ strL "exports.default = bundle;" ++ b ∧
          containsSub (strL "exports.default = bundle;") a = false ∧
          cjsTextSubst (strL "out.js")
              (strL "exports.default = bundle;exports.default = bundle;") =
            a ++ strL "module.exports = bundle;" ++ b) ∧
      cjsTextSubst (strL "out.js") (strL "exports.default = other;") =
        strL "exports.default = other;" :=
  ⟨(c10_substitution_first_occurrence_only (strL "out.js")
      (strL "exports.default = bundle;exports.default = bundle;")).1
      (by decide) (by decide),
    (c10_substitution_first_occurrence_only (strL "out.js")
      (strL "exports.default = other;")).2.1 (by decide) (by decide)⟩

/- ===== Export stripping (src/src/remove/exports.ts) ===== -/

/- Modifier kinds; only export and default are inspected by the source. -/
inductive TsMod where
  | exportM
  | defaultM
  | otherM (k : Nat)
deriving DecidableEq

/- The expression of an export assignment: the source only asks whether it is
   a bare identifier. -/
inductive TsExpr where
  | ident (name : LC)
  | nonIdent (k : Nat)
deriving DecidableEq

/- Statements as the visitor distinguishes them.  The declaration kinds the
   source matches carry their modifier list and an opaque payload (their
   bodies cannot contain further export constructs in the TypeScript
   grammar); module declarations (namespaces) are not matched by the
   modifier-stripping case and are traversed into by visitEachChild, so they
   carry their children. -/
inductive TsStmt where
  | funcDecl (mods : List TsMod) (d : Nat)
  | classDecl (mods : List TsMod) (d : Nat)
  | interfaceDecl (mods : List TsMod) (d : Nat)
  | typeAliasDecl (mods : List TsMod) (d : Nat)
  | enumDecl (mods : List TsMod) (d : Nat)
  | varStmt (mods : List TsMod) (d : Nat)
  | exportDecl (d : Nat)
  | exportAssign (e : TsExpr)
  | emptyStmt
  | moduleDecl (mods : List TsMod) (d : Nat) (kids : List TsStmt)
  | otherStmt (d : Nat)

/- modifiers.filter(m => m.kind !== Export && m.kind !== Default). -/
def stripMods (mods : List TsMod) : List TsMod :=
  mods.filter (fun m => !(m = TsMod.exportM || m = TsMod.defaultM))

theorem stripMods_idem (mods : List TsMod) : stripMods (stripMods mods) = stripMods mods := by
  unfold stripMods
  rw [List.filter_filter]
  apply List.filter_congr
  intro a _
  cases h : (!(a = TsMod.exportM || a = TsMod.defaultM)) <;> simp [h]

/- The visitor of removeExportExpressionHandler (exports.ts lines 56-148):
   case 1 strips export/default modifiers from the six matched declaration
   kinds (the update does not descend into the node); case 2 deletes export
   declarations; case 3 deletes export assignments of bare identifiers;
   everything else is traversed by visitEachChild. -/
mutual
def visitStmt : TsStmt → TsStmt
  | .funcDecl mods d =>
    if (stripMods mods).length = mods.length then .funcDecl mods d
    else .funcDecl (stripMods mods) d
  | .classDecl mods d =>
    if (stripMods mods).length = mods.length then .classDecl mods d
    else .classDecl (stripMods mods) d
  | .interfaceDecl mods d =>
    if (stripMods mods).length = mods.length then .interfaceDecl mods d
    else .interfaceDecl (stripMods mods) d
  | .typeAliasDecl mods d =>
    if (stripMods mods).length = mods.length then .typeAliasDecl mods d
    else .typeAliasDecl (stripMods mods) d
  | .enumDecl mods d =>
    if (stripMods mods).length = mods.length then .enumDecl mods d
    else .enumDecl (stripMods mods) d
  | .varStmt mods d =>
    if (stripMods mods).length = mods.length then .varStmt mods d
    else .varStmt (stripMods mods) d
  | .exportDecl _ => .emptyStmt
  | .exportAssign e =>
    match e with
    | .ident _ => .emptyStmt
    | .nonIdent k => .exportAssign (.nonIdent k)
  | .emptyStmt => .emptyStmt
  | .moduleDecl mods d kids => .moduleDecl mods d (visitList kids)
  | .otherStmt d => .otherStmt d

def visitList : List TsStmt → List TsStmt
  | [] => []
  | s :: rest => visitStmt s :: visitList rest
end

/- One source unit, with its content represented as its statement list.
   Modelled from the spec: the parse and re-print steps (ts.createSourceFile
   and the external transformFunction of the suseejs transformer package)
   are a faithful roundtrip, and the cleanup line removes exactly the
   top-level empty statements the visitor left behind (printed as bare
   semicolon lines at column zero). -/
def isEmptyStmt : TsStmt → Bool
  | .emptyStmt => true
  | _ => false

structure SourceUnit where
  path : LC
  stmts : List TsStmt

def removeExportHandler (u : SourceUnit) : SourceUnit :=
  ⟨u.path, (visitList u.stmts).filter (fun s => !isEmptyStmt s)⟩

mutual
theorem visitStmt_idem : ∀ s, visitStmt (visitStmt s) = visitStmt s
  | .funcDecl mods d => by
    by_cases h : (stripMods mods).length = mods.length
    · simp [visitStmt, h]
    · simp [visitStmt, h, stripMods_idem]
  | .classDecl mods d => by
    by_cases h : (stripMods mods).length = mods.length
    · simp [visitStmt, h]
    · simp [visitStmt, h, stripMods_idem]
  | .interfaceDecl mods d => by
    by_cases h : (stripMods mods).length = mods.length
    · simp [visitStmt, h]
    · simp [visitStmt, h, stripMods_idem]
  | .typeAliasDecl mods d => by
    by_cases h : (stripMods mods).length = mods.length
    · simp [visitStmt, h]
    · simp [visitStmt, h, stripMods_idem]
  | .enumDecl mods d => by
    by_cases h : (stripMods mods).length = mods.length
    · simp [visitStmt, h]
    · simp [visitStmt, h, stripMods_idem]
  | .varStmt mods d => by
    by_cases h : (stripMods mods).length = mods.length
    · simp [visitStmt, h]
    · simp [visitStmt, h, stripMods_idem]
  | .exportDecl d => by simp [visitStmt]
  | .exportAssign e => by
    cases e with
    | ident n => simp [visitStmt]
    | nonIdent k => simp [visitStmt]
  | .emptyStmt => by simp [visitStmt]
  | .moduleDecl mods d kids => by
    simp [visitStmt, visitList_idem kids]
  | .otherStmt d => by simp [visitStmt]

theorem visitList_idem : ∀ l, visitList (visitList l) = visitList l
  | [] => rfl
  | s :: rest => by
    simp [visitList, visitStmt_idem s, visitList_idem rest]
end

theorem visitList_eq_map (l : List TsStmt) : visitList l = l.map visitStmt := by
  induction l with
  | nil => rfl
  | cons s rest ih => simp [visitList, ih]

theorem filter_idem_stmts (p : TsStmt → Bool) (l : List TsStmt) :
    (l.filter p).filter p = l.filter p := by
  rw [List.filter_filter]
  apply List.filter_congr
  intro a _
  cases h : p a <;> simp [h]

/-- C4: the export-stripping handler is idempotent: applying it twice to any
source unit gives the same unit (same path, same content) as applying it
once.  Content is settled at the statement-list representation, with the
external parse and re-print collaborators modelled as a faithful roundtrip
per the spec. -/
theorem c4_export_strip_idempotent (u : SourceUnit) :
    removeExportHandler (removeExportHandler u) = removeExportHandler u := by
  unfold removeExportHandler
  simp only [SourceUnit.mk.injEq]
  refine ⟨trivial, ?_⟩
  rw [visitList_eq_map, visitList_eq_map]
  have hfix : ∀ x ∈ (u.stmts.map visitStmt).filter (fun s => !isEmptyStmt s),
      visitStmt x = x := by
    intro x hx
    have hx2 := (List.mem_filter.mp hx).1
    obtain ⟨y, hy, hxy⟩ := List.mem_map.mp hx2
    rw [← hxy]
    exact visitStmt_idem y
  have hinner : ((u.stmts.map visitStmt).filter (fun s => !isEmptyStmt s)).map visitStmt
      = (u.stmts.map visitStmt).filter (fun s => !isEmptyStmt s) := by
    calc ((u.stmts.map visitStmt).filter (fun s => !isEmptyStmt s)).map visitStmt
        = ((u.stmts.map visitStmt).filter (fun s => !isEmptyStmt s)).map id :=
          List.map_congr_left hfix
      _ = (u.stmts.map visitStmt).filter (fun s => !isEmptyStmt s) := List.map_id _
  rw [hinner]
  exact filter_idem_stmts _ _

/- ===== Import-strip cleanup (src/src/remove/imports.ts line 36) ===== -/

/- The $ of the cleanup regexp with the m flag: backtrack the greedy \s* to
   the largest prefix of the whitespace run whose remainder is the end of the
   string or starts with a newline.  Returns the last consumed character (if
   any whitespace was consumed) and the remainder. -/
def dollarSplit (rest : LC) : Option (Option Char × LC) :=
  firstSome
    (fun j =>
      let k := wsRun rest - j
      let rem := rest.drop k
      if rem.isEmpty || rem.head? = some '\n' then
        some (if k = 0 then none else (rest.drop (k - 1)).head?, rem)
      else none)
    (List.range (wsRun rest + 1))

/- One attempt of the cleanup regexp ^s*;\s*$ (note the unescaped literal s)
   at a line-start position: a greedy run of the letter s, a semicolon, then
   whitespace up to a line end.  Returns the last consumed character and the
   remainder after the match. -/
def lineMatchAt (s : LC) : Option (Char × LC) :=
  let sRun := s.takeWhile (fun c => c = 's')
  match s.drop sRun.length with
  | ';' :: rest =>
    match dollarSplit rest with
    | some (lastWs, rem) => some (lastWs.getD ';', rem)
    | none => none
  | _ => none

/- replace(/^s*;\s*$/gm, ""): scan the string, attempting the line regexp at
   every line-start position, removing each match and resuming after it. -/
def cleanScanF : Nat → Option Char → LC → LC
  | _, _, [] => []
  | 0, _, s => s
  | fuel + 1, prev, c :: cs =>
    if prev.isNone || prev = some '\n' then
      match lineMatchAt (c :: cs) with
      | some (lastC, rem) => cleanScanF fuel (some lastC) rem
      | none => c :: cleanScanF fuel (some c) cs
    else c :: cleanScanF fuel (some c) cs

/- The cleanup of removeImportExpressionHandler: the replace above followed
   by trim. -/
def cleanContent (content : LC) : LC :=
  trimWs (cleanScanF content.length none content)

/- Splitting into lines, for stating which lines survive. -/
def splitNl : LC → List LC
  | [] => [[]]
  | c :: cs =>
    if c = '\n' then [] :: splitNl cs
    else
      match splitNl cs with
      | h :: t => (c :: h) :: t
      | [] => [[c]]

/- A line consisting of a semicolon with optional surrounding whitespace. -/
def isSemiOnlyLine (l : LC) : Bool := trimWs l = [';']

def hasSemiOnlyLine (s : LC) : Bool := (splitNl s).any isSemiOnlyLine

/-- C8: the claim is right and the code is wrong.  The cleanup regexp of
removeImportExpressionHandler is written with a literal letter s instead of a
whitespace class before the semicolon, so a line consisting of whitespace
followed by a semicolon is not trimmed: on a content whose middle line is a
space and a semicolon the cleanup returns the content unchanged and a
semicolon-only line (in the sense of the claim) survives, while the same
content with the semicolon at column zero is cleaned as the claim expects. -/
theorem c8_semicolon_line_survives_cleanup :
    cleanContent (strL "let a = 1;\n ;\nlet b = 2;") = strL "let a = 1;\n ;\nlet b = 2;" ∧
      hasSemiOnlyLine (cleanContent (strL "let a = 1;\n ;\nlet b = 2;")) = true ∧
      cleanContent (strL "let a = 1;\n;\nlet b = 2;") = strL "let a = 1;\n\nlet b = 2;" := by
  refine ⟨by decide, by decide, by decide⟩

/- ===== Dependency stage and bundle result (src/src/remove/imports.ts) ===== -/

/- Modelled from the spec: the resolver collaborator's raw output — the
   dependency list, the circular-reference pairs and the unknown-module
   findings. -/
structure ResolverOut where
  deps : List LC
  mutualPairs : List (LC × LC)
  warns : List LC

def concatAll (l : List LC) : LC := l.foldr (fun a b => a ++ b) []

/- getDependencies (imports.ts lines 165-184): sorts the dependencies and
   accumulates the findings as warning message text. -/
def getDependenciesModel (r : ResolverOut) : List LC × List LC :=
  let sorted := sortStrs r.deps
  let circular := r.mutualPairs.map
    (fun i => i.1 ++ strL " -> " ++ i.2 ++ strL " \n " ++ i.2 ++ strL " -> " ++ i.1 ++ strL " \n")
  let unknown := r.warns.map (fun i => i ++ strL "\n")
  let msgs := (if circular.isEmpty then [] else [concatAll circular]) ++
    (if unknown.isEmpty then [] else [concatAll unknown])
  (sorted, msgs)

structure DepsFile where
  file : LC
  content : LC

/- dependency (lines 191-205): resolve and read each dependency, return the
   files beside the messages.  The path resolution and file read are
   external collaborators, taken as parameters. -/
structure DependencyOut where
  depFiles : List DepsFile
  messages : List LC

def dependencyModel (r : ResolverOut) (resolveP readF : LC → LC) : DependencyOut :=
  ⟨(getDependenciesModel r).1.map (fun d => ⟨resolveP d, readF (resolveP d)⟩),
    (getDependenciesModel r).2⟩

/- The value bundle returns: content and the markup flag only. -/
structure BundleResult where
  content : LC
  isJsx : Bool

/- bundle (lines 224-308), with the external collaborators (duplicate
   renamer, anonymous normalizer, the stripping passes, the markup check) as
   parameters: takes the dependency-stage output, pipes the files through the
   collaborators, filters the removed statements with the quoted-specifier
   regexp, merges them, and concatenates.  The messages field of the
   dependency output is never read. -/
def bundleModel (depOut : DependencyOut) (isJsx : Bool)
    (dupHandler anon : List DepsFile → List DepsFile)
    (stripImports : List DepsFile → List DepsFile × List LC)
    (stripExport : DepsFile → DepsFile) : BundleResult :=
  let deps0 := depOut.depFiles
  let deps1 := dupHandler deps0
  let deps2 := anon deps1
  let stripped := stripImports deps2
  let deps3 := stripped.1
  let removedStatements := stripped.2
  let depsFiles := deps3.dropLast.map stripExport
  let mainFile := deps3.drop (deps3.length - 1)
  let removed1 := removedStatements.filter regexpTest
  let removed2 := mergeImports removed1
  let topContent := trimWs (joinSep (strL "\n") removed2)
  let content := trimWs (topContent ++ strL "\n" ++
    joinSep (strL "\n") (depsFiles.map DepsFile.content) ++ strL "\n" ++
    joinSep (strL "\n") (mainFile.map DepsFile.content))
  ⟨content, isJsx⟩

/-- C7 (amended): circular-reference and unknown-module findings never abort
and are accumulated as warning message text by the dependency stage, which
returns them beside the dependency files; the bundle computation is total and
its result depends only on the dependency files, never on the messages — the
warning text is dropped by bundle, not surfaced to bundle's caller, whose
result carries only the content and the markup flag.  The original claim
that the findings reach the caller of bundle is refuted by
c7_warnings_not_surfaced_counterexample. -/
theorem c7_warnings_accumulated_not_propagated :
    (∀ r : ResolverOut, r.mutualPairs ≠ [] ∨ r.warns ≠ [] →
        (getDependenciesModel r).2 ≠ []) ∧
      (∀ (d1 d2 : DependencyOut) (jsx : Bool)
          (dup anon : List DepsFile → List DepsFile)
          (strip : List DepsFile → List DepsFile × List LC)
          (se : DepsFile → DepsFile), d1.depFiles = d2.depFiles →
        bundleModel d1 jsx dup anon strip se = bundleModel d2 jsx dup anon strip se) := by
  constructor
  · intro r h
    unfold getDependenciesModel
    rcases h with h | h
    · have : ¬(r.mutualPairs.map (fun i =>
          i.1 ++ strL " -> " ++ i.2 ++ strL " \n " ++ i.2 ++ strL " -> " ++ i.1 ++ strL " \n")).isEmpty = true := by
        cases hm : r.mutualPairs with
        | nil => exact absurd hm h
        | cons a t => simp [hm]
      simp only [this]
      simp
    · have hci : (r.mutualPairs.map (fun i =>
          i.1 ++ strL " -> " ++ i.2 ++ strL " \n " ++ i.2 ++ strL " -> " ++ i.1 ++ strL " \n")).isEmpty = true ∨
          ¬(r.mutualPairs.map (fun i =>
          i.1 ++ strL " -> " ++ i.2 ++ strL " \n " ++ i.2 ++ strL " -> " ++ i.1 ++ strL " \n")).isEmpty = true := by
        tauto
      have hu : ¬(r.warns.map (fun i => i ++ strL "\n")).isEmpty = true := by
        cases hm : r.warns with
        | nil => exact absurd hm h
        | cons a t => simp [hm]
      rcases hci with hci | hci <;> simp [hci, hu]
  · intro d1 d2 jsx dup anon strip se h
    unfold bundleModel
    rw [h]

/-- C7 witness: at a resolver output with one circular pair the message list
is nonempty, and two concrete dependency outputs differing only in their
message lists yield the same bundle result. -/
theorem c7_warnings_accumulated_not_propagated_witness :
    (getDependenciesModel ⟨[], [(strL "a.ts", strL "b.ts")], []⟩).2 ≠ [] ∧
      bundleModel ⟨[], [strL "warn"]⟩ false id id (fun d => (d, [])) id =
        bundleModel ⟨[], []⟩ false id id (fun d => (d, [])) id :=
  ⟨c7_warnings_accumulated_not_propagated.1 ⟨[], [(strL "a.ts", strL "b.ts")], []⟩
      (Or.inl (by decide)),
    c7_warnings_accumulated_not_propagated.2 ⟨[], [strL "warn"]⟩ ⟨[], []⟩ false id id
      (fun d => (d, [])) id rfl⟩

/-- C7 counterexample: the findings are not surfaced to bundle's caller.
With the same dependency files, a dependency output carrying a nonempty
warning message list produces a bundle result literally identical to the one
produced with no warnings at all, and the result type carries only content
and the markup flag, so no channel exists for the warning text. -/
theorem c7_warnings_not_surfaced_counterexample :
    bundleModel ⟨[⟨strL "a.ts", strL "let a = 1;"⟩], [strL "a.ts -> b.ts"]⟩ false id id
        (fun d => (d, [])) id =
      bundleModel ⟨[⟨strL "a.ts", strL "let a = 1;"⟩], []⟩ false id id
        (fun d => (d, [])) id := rfl
